import Mathlib

/-!
Verification of the posetal-game library (orders.py, order_of_priority.py,
game.py, nash_finder.py) against its specification.

The Python code is shallowly embedded: Python sets that are only queried for
membership become `Finset`, Python sets whose iteration order the code
observes (for example the element set that `_transitive_closure` iterates
over) become `List` holding one admissible iteration order, dicts become
association lists with `lookupA`/`updateA`, floats (only ever compared,
never computed with) become `Int`, and raising code returns `Except Err`.
-/

set_option maxHeartbeats 1000000

namespace PGame

/-! ### Association lists (Python dicts) -/

/-- Dict lookup, `d[k]` / `k in d`. Returns the value at the first matching key. -/
def lookupA {κ V : Type} [DecidableEq κ] : List (κ × V) → κ → Option V
  | [], _ => none
  | p :: ps, k => if p.1 = k then some p.2 else lookupA ps k

/-- Dict assignment `d[k] = v`: overwrite in place if the key is present,
append at the end otherwise (CPython dicts keep first-insertion key order). -/
def updateA {κ V : Type} [DecidableEq κ] : List (κ × V) → κ → V → List (κ × V)
  | [], k, v => [(k, v)]
  | p :: ps, k, v => if p.1 = k then (k, v) :: ps else p :: updateA ps k v

/-- Sequence a fallible map over a list (first failure wins). -/
def mapE {ε β γ : Type} (f : β → Except ε γ) : List β → Except ε (List γ)
  | [] => .ok []
  | x :: xs =>
    match f x with
    | .error e => .error e
    | .ok y =>
      match mapE f xs with
      | .error e => .error e
      | .ok ys => .ok (y :: ys)

/-- Fallible left fold (first failure wins). -/
def foldlE {ε β σ : Type} (f : σ → β → Except ε σ) : σ → List β → Except ε σ
  | s, [] => .ok s
  | s, x :: xs =>
    match f s x with
    | .error e => .error e
    | .ok s2 => foldlE f s2 xs

/-- Sequence a partial map over a list. -/
def mapO {β γ : Type} (f : β → Option γ) : List β → Option (List γ)
  | [] => some []
  | x :: xs =>
    match f x with
    | none => none
    | some y =>
      match mapO f xs with
      | none => none
      | some ys => some (y :: ys)

/-! ### itertools -/

/-- itertools.combinations(l, 2): pairs `(l[i], l[j])` with `i < j`, in Python order. -/
def combinations2 {α : Type} : List α → List (α × α)
  | [] => []
  | x :: xs => (xs.map fun y => (x, y)) ++ combinations2 xs

/-- itertools.combinations(l, 3): triples `(l[i], l[j], l[k])` with `i < j < k`. -/
def combinations3 {α : Type} : List α → List (α × α × α)
  | [] => []
  | x :: xs => ((combinations2 xs).map fun p => (x, p.1, p.2)) ++ combinations3 xs

/-- itertools.product(l, repeat=2), second component varying fastest. -/
def product2 {α : Type} (l : List α) : List (α × α) :=
  l.flatMap fun a => l.map fun b => (a, b)

/-- itertools.product(*ls), last factor varying fastest. -/
def cartesian {α : Type} : List (List α) → List (List α)
  | [] => [[]]
  | l :: ls => l.flatMap fun x => (cartesian ls).map fun c => x :: c

/-! ### Reachability in a finite directed graph given by an edge list

Models the reachability notions the Python code obtains from networkx
(`nx.ancestors`, acyclicity, transitive reduction). -/

/-- The one-step edge relation of an edge list. -/
def EdgeRel {α : Type} (E : List (α × α)) (a b : α) : Prop := (a, b) ∈ E

instance {α : Type} [DecidableEq α] (E : List (α × α)) (a b : α) :
    Decidable (EdgeRel E a b) := by
  unfold EdgeRel; infer_instance

/-- Strict reachability: a directed path with at least one edge. -/
def Reaches {α : Type} (E : List (α × α)) (a b : α) : Prop :=
  Relation.TransGen (EdgeRel E) a b

variable {α : Type} [DecidableEq α]

/-- One round of forward expansion of a vertex set along the edges. -/
def stepSet (E : List (α × α)) (S : Finset α) : Finset α :=
  S ∪ ((E.filter fun p => p.1 ∈ S).map Prod.snd).toFinset

/-- Iterated forward expansion. -/
def iterStep (E : List (α × α)) : Nat → Finset α → Finset α
  | 0, S => S
  | n + 1, S => stepSet E (iterStep E n S)

/-- Direct successors of a vertex. -/
def succSet (E : List (α × α)) (a : α) : Finset α :=
  ((E.filter fun p => p.1 = a).map Prod.snd).toFinset

/-- All edge targets. -/
def targetSet (E : List (α × α)) : Finset α := (E.map Prod.snd).toFinset

/-- Enough expansion rounds to saturate. -/
def reachBound (E : List (α × α)) (a : α) : Nat :=
  (succSet E a ∪ targetSet E).card + 1

/-- The set of vertices strictly reachable from `a`. -/
def reachSet (E : List (α × α)) (a : α) : Finset α :=
  iterStep E (reachBound E a) (succSet E a)

/-- Boolean strict-reachability test. -/
def reachb (E : List (α × α)) (a b : α) : Bool := b ∈ reachSet E a

/-- Boolean cycle test for a digraph: some edge source reaches itself.
Models the acyclicity check of `nx.transitive_reduction` and
`nx.is_directed_acyclic_graph`. -/
def hasCycleb (E : List (α × α)) : Bool :=
  (E.map Prod.fst).any fun a => reachb E a a

/-! ### orders.py: PreOrder and PartialOrder construction

`elements` is the Python set as a list in its iteration order (CPython set
iteration order is fixed during construction; the closure and validation
loops observe it through `itertools.combinations`). `relations` is only
queried for membership, so it is a `Finset`. -/

/-- Construction/validation errors.  Each constructor stands for one of the
distinct `raise` sites (or an `assert`/`KeyError`) of the Python code. -/
inductive Err : Type
  | notReflexive
  | notTransitive
  | notAntisymmetric
  | hasseCycle
  | badSubset
  | keyError
  | domainMismatch
  | capacityExceeded
  | nonSingletonClass
  deriving DecidableEq

/-- The value stored by a constructed `PreOrder`/`PartialOrder` object:
element set (as iteration-order list), closed relation set, equivalence
classes of the Hasse diagram (each class a list in discovery order, head =
representative), and Hasse edges as index pairs into `eqClasses`. -/
structure PreOrderS (α : Type) where
  elements : List α
  relations : Finset (α × α)
  eqClasses : List (List α)
  hasseEdges : List (Nat × Nat)
  deriving DecidableEq

instance {α : Type} : Inhabited (PreOrderS α) := ⟨⟨[], ∅, [], []⟩⟩

/-- `PreOrder.leq`: `(a, b) in self.relations`. -/
def PreOrderS.leq {α : Type} (P : PreOrderS α) (a b : α) : Prop :=
  (a, b) ∈ P.relations

/-- `PreOrder.less`: `leq(a, b) and not leq(b, a)`. -/
def PreOrderS.less {α : Type} (P : PreOrderS α) (a b : α) : Prop :=
  P.leq a b ∧ ¬ P.leq b a

instance {α : Type} [DecidableEq α] (P : PreOrderS α) (a b : α) :
    Decidable (P.leq a b) := by unfold PreOrderS.leq; infer_instance

instance {α : Type} [DecidableEq α] (P : PreOrderS α) (a b : α) :
    Decidable (P.less a b) := by unfold PreOrderS.less; infer_instance

variable {α : Type} [DecidableEq α]

/-- One pass of the `while added` loop body of `_transitive_closure`:
fold over the triples of `combinations(elements, 3)`, adding `(a, c)` when
`(a, b)` and `(b, c)` are present and `(a, c)` is not; the second component
records whether anything was added. -/
def closurePass (ts : List (α × α × α)) (c : Finset (α × α)) :
    Finset (α × α) × Bool :=
  ts.foldl
    (fun acc t =>
      if (t.1, t.2.1) ∈ acc.1 ∧ (t.2.1, t.2.2) ∈ acc.1 ∧ (t.1, t.2.2) ∉ acc.1
      then (insert (t.1, t.2.2) acc.1, true)
      else acc)
    (c, false)

/-- The `while added` loop of `_transitive_closure`, with enough fuel to
reach the fixed point (each continuing pass adds at least one pair of
elements, of which there are at most `|elements|^2`). -/
def closureLoop : Nat → List (α × α × α) → Finset (α × α) → Finset (α × α)
  | 0, _, c => c
  | n + 1, ts, c =>
    let p := closurePass ts c
    if p.2 then closureLoop n ts p.1 else p.1

/-- `_transitive_closure(elements, relations)`.  Note that the Python code
iterates `combinations(elements, 3)`, which visits each 3-element subset in
only one of its six orderings. -/
def transitive_closure (elements : List α) (relations : Finset (α × α)) :
    Finset (α × α) :=
  closureLoop (elements.length * elements.length + 1) (combinations3 elements) relations

/-- `_reflexive_closure(elements, relations)`. -/
def reflexive_closure (elements : List α) (relations : Finset (α × α)) :
    Finset (α × α) :=
  elements.foldl (fun acc e => insert (e, e) acc) relations

/-- `PreOrder._validate`: reflexivity check first, then the transitivity
check over `combinations(elements, 3)`.  Returns the first error raised. -/
def validate_preorder (elements : List α) (relations : Finset (α × α)) :
    Option Err :=
  if ¬ (elements.all fun e => decide ((e, e) ∈ relations)) then some .notReflexive
  else if ¬ ((combinations3 elements).all fun t =>
      !((t.1, t.2.1) ∈ relations ∧ (t.2.1, t.2.2) ∈ relations ∧ (t.1, t.2.2) ∉ relations :
        Bool)) then some .notTransitive
  else none

/-- `PartialOrder._validate`: the `PreOrder` checks, then the antisymmetry
check over `combinations(elements, 2)`. -/
def validate_partialorder (elements : List α) (relations : Finset (α × α)) :
    Option Err :=
  match validate_preorder elements relations with
  | some e => some e
  | none =>
    if ¬ ((combinations2 elements).all fun p =>
        !((p.1, p.2) ∈ relations ∧ (p.2, p.1) ∈ relations ∧ p.1 ≠ p.2 : Bool))
    then some .notAntisymmetric
    else none

/-- The equivalence-class computation of `_build_hasse_diagram`: fold over
the elements, adding each to the first class whose representative is
equivalent, else opening a new class.  A class is a list in discovery
order; its head models `next(iter(eq_class))`, the representative. -/
def build_classes (relations : Finset (α × α)) (elements : List α) :
    List (List α) :=
  elements.foldl
    (fun classes e =>
      match classes.findIdx? (fun c =>
          decide ((e, c.headD e) ∈ relations ∧ (c.headD e, e) ∈ relations)) with
      | some i => classes.set i (classes.getD i [] ++ [e])
      | none => classes ++ [[e]])
    []

/-- The class-graph edges of `_build_hasse_diagram`: for each unordered
pair of classes (in `combinations` order) an edge between the class indices
directed by strict comparison of the representatives. -/
def class_edges (relations : Finset (α × α)) (classes : List (List α)) :
    List (Nat × Nat) :=
  (combinations2 (List.range classes.length)).foldl
    (fun es ij =>
      match (classes.getD ij.1 []).head?, (classes.getD ij.2 []).head? with
      | some ra, some rb =>
        if (ra, rb) ∈ relations ∧ (rb, ra) ∉ relations then es ++ [ij]
        else if (rb, ra) ∈ relations ∧ (ra, rb) ∉ relations then es ++ [(ij.2, ij.1)]
        else es
      | _, _ => es)
    []

/-- The edges kept by the transitive reduction of a DAG: those `(u, v)`
admitting no other path from `u` to `v`. -/
def reductionOf (E : List (Nat × Nat)) : List (Nat × Nat) :=
  E.filter fun uv =>
    !(E.any fun uw => uw.1 == uv.1 && uw.2 != uv.2 && reachb E uw.2 uv.2)

/-- Models `nx.transitive_reduction`: fails on a cyclic digraph, otherwise
keeps exactly the edges `(u, v)` admitting no other path from `u` to `v`
(for a finite DAG this is the unique transitive reduction). -/
def transitive_reduction (E : List (Nat × Nat)) : Except Err (List (Nat × Nat)) :=
  if hasCycleb E then .error .hasseCycle
  else .ok (reductionOf E)

/-- `PreOrder.__init__` body shared by `PreOrder` and `PartialOrder`:
transitive closure, then reflexive closure, then the Hasse diagram
(equivalence classes, class edges, transitive reduction — which raises on
a cyclic class graph), then validation, in source order. -/
def mkPreOrderWith (validate : List α → Finset (α × α) → Option Err)
    (elements : List α) (relations : Finset (α × α)) : Except Err (PreOrderS α) :=
  let r1 := transitive_closure elements relations
  let r := reflexive_closure elements r1
  let classes := build_classes r elements
  match transitive_reduction (class_edges r classes) with
  | .error e => .error e
  | .ok h =>
    match validate elements r with
    | some e => .error e
    | none => .ok ⟨elements, r, classes, h⟩

/-- `PreOrder(elements, relations)`. -/
def mkPreOrder (elements : List α) (relations : Finset (α × α)) :
    Except Err (PreOrderS α) :=
  mkPreOrderWith validate_preorder elements relations

/-- `PartialOrder(elements, relations)`. -/
def mkPartialOrder (elements : List α) (relations : Finset (α × α)) :
    Except Err (PreOrderS α) :=
  mkPreOrderWith validate_partialorder elements relations

/-- `PreOrder.build_sub_preorder(subset)`: assert the subset is contained
in the elements, filter the relations to the subset, reconstruct.
`subsetList` is the Python subset set in its iteration order. -/
def build_sub_preorder (P : PreOrderS α) (subsetList : List α) :
    Except Err (PreOrderS α) :=
  if ¬ (subsetList.all fun e => decide (e ∈ P.elements)) then .error .badSubset
  else mkPreOrder subsetList
    (P.relations.filter fun ab => ab.1 ∈ subsetList ∧ ab.2 ∈ subsetList)

/-- The relation set of `total_order_from_list`: pairs `(l[i], l[j])` for
`i <= j` (built from `enumerate`). -/
def trel (l : List α) : Finset (α × α) :=
  (((l.enum.product l.enum).filter fun p => p.1.1 ≤ p.2.1).map
    fun p => (p.1.2, p.2.2)).toFinset

/-- `total_order_from_list(elements)`: relations `(l[i], l[j])` for
`i <= j`, then `PartialOrder(set(elements), relations)`.  The Python
`set(elements)` is modeled as `elements.dedup`. -/
def total_order_from_list (l : List α) : Except Err (PreOrderS α) :=
  mkPartialOrder l.dedup (trel l)

/-- `_terminal_nodes`: Hasse-diagram nodes (class indices) of out-degree 0. -/
def terminal_nodes (n : Nat) (E : List (Nat × Nat)) : List Nat :=
  (List.range n).filter fun i => E.all fun uv => decide (uv.1 ≠ i)

/-- `_source_nodes`: Hasse-diagram nodes (class indices) of in-degree 0. -/
def source_nodes (n : Nat) (E : List (Nat × Nat)) : List Nat :=
  (List.range n).filter fun i => E.all fun uv => decide (uv.2 ≠ i)

/-- `maximal_elements(poset)` as a deduplicated list: union of the classes
at terminal nodes. -/
def maximal_elements_list (P : PreOrderS α) : List α :=
  ((terminal_nodes P.eqClasses.length P.hasseEdges).flatMap
    fun i => P.eqClasses.getD i []).dedup

/-- `maximal_elements(poset)`, the resulting set. -/
def maximal_elements (P : PreOrderS α) : Finset α :=
  (maximal_elements_list P).toFinset

/-- `minimal_elements(poset)`, the resulting set. -/
def minimal_elements (P : PreOrderS α) : Finset α :=
  (((source_nodes P.eqClasses.length P.hasseEdges).flatMap
    fun i => P.eqClasses.getD i []).dedup).toFinset

/-! ### orders.py: completions_of_poset -/

/-- One fold step building `adj`/`indeg` from the Hasse cover edges:
`if ve not in adj[ue]: adj[ue].add(ve); indeg[ve] += 1` (dict indexing of a
missing key raises). -/
def adjIndegStep (st : List (α × List α) × List (α × Nat)) (uv : α × α) :
    Except Err (List (α × List α) × List (α × Nat)) :=
  match lookupA st.1 uv.1 with
  | none => .error .keyError
  | some succs =>
    if uv.2 ∈ succs then .ok st
    else
      match lookupA st.2 uv.2 with
      | none => .error .keyError
      | some d => .ok (updateA st.1 uv.1 (succs ++ [uv.2]), updateA st.2 uv.2 (d + 1))

/-- `new_indeg[succ] -= 1` (every successor is an `indeg` key by
construction of `adj`, so the missing-key case cannot arise). -/
def decIndeg (ind : List (α × Nat)) (k : α) : List (α × Nat) :=
  ind.map fun p => if p.1 = k then (p.1, p.2 - 1) else p

/-- `_backtrack(order, available, current_indeg)` of `completions_of_poset`.
`nAdj` is `len(adj)`; the fuel argument only bounds the recursion depth,
which never exceeds `nAdj + 1` from the initial state. -/
def backtrack (adj : List (α × List α)) (nAdj : Nat) :
    Nat → List α → List α → List (α × Nat) → Except Err (List (PreOrderS α))
  | 0, _, _, _ => .ok []
  | fuel + 1, order, avail, ind =>
    if order.length == nAdj then
      (total_order_from_list order).map fun T => [T]
    else
      foldlE
        (fun acc e =>
          let p := ((lookupA adj e).getD []).foldl
            (fun st s =>
              let ind2 := decIndeg st.2 s
              (if (lookupA ind2 s).getD 1 == 0 then st.1 ++ [s] else st.1, ind2))
            (avail.erase e, ind)
          Except.map (fun L => acc ++ L) (backtrack adj nAdj fuel (order ++ [e]) p.1 p.2))
        [] avail

/-- `completions_of_poset(poset)`: check every Hasse node is a singleton
class, build `adj`/`indeg` from the cover edges, and run the backtracking
enumeration of linear extensions (the whole generator, as a list). -/
def completions_of_poset (P : PreOrderS α) : Except Err (List (PreOrderS α)) :=
  if ¬ (P.eqClasses.all fun c => c.length == 1) then .error .nonSingletonClass
  else
    let nodes := P.eqClasses.filterMap List.head?
    let keys := nodes.dedup
    let edges := P.hasseEdges.filterMap fun ij =>
      match (P.eqClasses.getD ij.1 []).head?, (P.eqClasses.getD ij.2 []).head? with
      | some u, some v => some (u, v)
      | _, _ => none
    match foldlE adjIndegStep
        (keys.map fun e => (e, ([] : List α)), keys.map fun e => (e, 0)) edges with
    | .error e => .error e
    | .ok st0 =>
      let initial := (st0.2.filter fun p => p.2 == 0).map Prod.fst
      backtrack st0.1 keys.length (keys.length + 1) [] initial st0.2

/-- Python `PreOrder.__eq__` / `PartialOrder.__eq__`: equality of the
element set and of the relation set. -/
def valueEq (P Q : PreOrderS α) : Prop :=
  P.elements.toFinset = Q.elements.toFinset ∧ P.relations = Q.relations

instance (P Q : PreOrderS α) : Decidable (valueEq P Q) := by
  unfold valueEq; infer_instance

/-! ### game.py: action profiles, metrics, players, posetal games

Type parameters: `ι` = player ids, `A` = actions, `M` = metric names (all
Python strings; kept generic).  Metric values are `Int` (the floats the
code produces are only ever compared, never computed with). -/

/-- `ActionProfile`: an immutable dict from player id to action, as an
association list.  Python compares profiles by dict content
(`__eq__`/`__hash__` ignore key insertion order), and this program never
observes a profile's insertion order (profiles are only read through
keyed lookups, equality and hashing), so every dict value is represented
by its canonical association list: entries in the game's player order.
The game constructor already produces this order, and the one place that
inserts keys in a different order (`induced_preorder_actions_of_player`,
which assigns the queried player's entry last) canonicalizes the result,
making structural equality coincide with Python's dict equality on all
profiles the program manipulates. -/
structure ActionProfileS (ι A : Type) where
  entries : List (ι × A)
  deriving DecidableEq

/-- `action_profile[player_id]` (which raises `KeyError` when absent). -/
def ActionProfileS.get? {ι A : Type} [DecidableEq ι] (ap : ActionProfileS ι A)
    (i : ι) : Option A :=
  lookupA ap.entries i

/-- `Metric`: a named outcome function. -/
structure MetricS (ι A M : Type) where
  name : M
  outcome_function : ActionProfileS ι A → Int

/-- `Player`. `actions` and `metrics` are the frozensets as lists in
iteration order (`actions` deduplicated at construction). -/
structure PlayerS (ι A M : Type) where
  player_id : ι
  actions : List A
  metrics : List (MetricS ι A M)
  preference : PreOrderS M

variable {ι A M : Type} [DecidableEq ι] [DecidableEq A] [DecidableEq M]

/-- `Player.__init__`: validates that the preference's element set equals
the set of metric names, else raises. -/
def mkPlayer (pid : ι) (actions : List A) (metrics : List (MetricS ι A M))
    (preference : PreOrderS M) : Except Err (PlayerS ι A M) :=
  if preference.elements.toFinset = (metrics.map MetricS.name).toFinset then
    .ok ⟨pid, actions.dedup, metrics, preference⟩
  else .error .domainMismatch

/-- The three comparison tags of `_check_induced_leq`. -/
inductive CompRes : Type
  | LESS
  | EQUAL
  | GREATER
  deriving DecidableEq, BEq

/-- The dict `metric_comparison_results` of `_check_induced_leq`. -/
def metric_comparison_results (p : PlayerS ι A M)
    (ap1 ap2 : ActionProfileS ι A) : List (M × CompRes) :=
  p.metrics.foldl
    (fun acc m =>
      let v1 := m.outcome_function ap1
      let v2 := m.outcome_function ap2
      updateA acc m.name (if v1 < v2 then .LESS else if v1 > v2 then .GREATER else .EQUAL))
    []

/-- The priority edges of `_check_induced_leq`: `a → b` for every ordered
pair of preference elements with `preference.less(a, b)`. -/
def preference_edges (pref : PreOrderS M) : List (M × M) :=
  (product2 pref.elements).filter fun ab => decide (pref.less ab.1 ab.2)

/-- The GREATER-tagged metric names of `_check_induced_leq`. -/
def greaterNames (p : PlayerS ι A M) (ap1 ap2 : ActionProfileS ι A) : List M :=
  ((metric_comparison_results p ap1 ap2).filter
    fun mc => mc.2 == CompRes.GREATER).map Prod.fst

/-- The LESS-tagged metric names of `_check_induced_leq`. -/
def lessNames (p : PlayerS ι A M) (ap1 ap2 : ActionProfileS ι A) : List M :=
  ((metric_comparison_results p ap1 ap2).filter
    fun mc => mc.2 == CompRes.LESS).map Prod.fst

/-- `_check_induced_leq(player, ap1, ap2)`: every GREATER-tagged metric
name must be an ancestor (strict reachability along the priority edges) of
some LESS-tagged metric name. -/
def check_induced_leq (p : PlayerS ι A M) (ap1 ap2 : ActionProfileS ι A) : Bool :=
  (greaterNames p ap1 ap2).all fun g =>
    (lessNames p ap1 ap2).any fun l => reachb (preference_edges p.preference) g l

/-- The Cartesian action-profile list of `PosetalGame.__init__`
(`itertools.product` over the players' action sets, player order). -/
def computeActionProfiles (players : List (PlayerS ι A M)) :
    List (ActionProfileS ι A) :=
  (cartesian (players.map PlayerS.actions)).map fun combo =>
    ⟨(players.map PlayerS.player_id).zip combo⟩

/-- `PosetalGame.induced_preorder_action_profiles(player_id)`, as a
function of the player list and profile list (it is computed both at game
construction and again on demand).  `KeyError` when the id is unknown. -/
def induced_preorder_core (players : List (PlayerS ι A M))
    (aps : List (ActionProfileS ι A)) (pid : ι) :
    Except Err (PreOrderS (ActionProfileS ι A)) :=
  match lookupA (players.map fun p => (p.player_id, p)) pid with
  | none => .error .keyError
  | some player =>
    mkPreOrder aps.dedup
      ((product2 aps).filter fun ab => check_induced_leq player ab.1 ab.2).toFinset

/-- `PosetalGame`: players plus the eagerly computed profile list and
per-player induced preorders. -/
structure PosetalGameS (ι A M : Type) where
  players : List (PlayerS ι A M)
  action_profiles : List (ActionProfileS ι A)
  induced : List (ι × PreOrderS (ActionProfileS ι A))

instance : Inhabited (PosetalGameS ι A M) := ⟨⟨[], [], []⟩⟩

/-- `PosetalGame.__init__`. -/
def mkPosetalGame (players : List (PlayerS ι A M)) :
    Except Err (PosetalGameS ι A M) :=
  let aps := computeActionProfiles players
  Except.map (fun ind => ⟨players, aps, ind⟩)
    (mapE (fun p =>
        Except.map (fun pre => (p.player_id, pre))
          (induced_preorder_core players aps p.player_id))
      players)

/-- `game.induced_pre_order_for_players[player_id]` (total: construction
stores an entry per player). -/
def getInduced (g : PosetalGameS ι A M) (pid : ι) :
    PreOrderS (ActionProfileS ι A) :=
  (lookupA g.induced pid).getD default

/-- The canonical representative of a profile dict: its entries reordered
along the given player-id list (Python's `ActionProfile` equality and
hashing are dict-content-based, so a dict built in any insertion order
denotes the same value as its game-ordered form; see `ActionProfileS`). -/
def canonProfile (ids : List ι) (d : List (ι × A)) : ActionProfileS ι A :=
  ⟨ids.filterMap fun q => (lookupA d q).map fun a => (q, a)⟩

/-- `PosetalGame.induced_preorder_actions_of_player(player_id, other)`:
read the other players' actions from `other` (raising on a missing key),
form the profiles that vary only this player's action (the source builds
each dict by inserting the other players first and the queried player
last; the resulting value is kept as its canonical game-ordered
representative), recompute the full induced preorder and restrict it.
The sub-preorder's element list order follows the player's action
list. -/
def induced_preorder_actions_of_player (g : PosetalGameS ι A M) (pid : ι)
    (other : ActionProfileS ι A) :
    Except Err (PreOrderS (ActionProfileS ι A)) :=
  let other_ids := (g.players.map PlayerS.player_id).filter fun q => q ≠ pid
  match mapO (fun q => lookupA other.entries q) other_ids with
  | none => .error .keyError
  | some acts =>
    let od := other_ids.zip acts
    match lookupA (g.players.map fun p => (p.player_id, p)) pid with
    | none => .error .keyError
    | some player =>
      let allowed := (player.actions.map fun a =>
        canonProfile (g.players.map PlayerS.player_id)
          (updateA od pid a)).dedup
      match induced_preorder_core g.players g.action_profiles pid with
      | .error e => .error e
      | .ok base => build_sub_preorder base allowed

/-- `best_response(player, other_players_actions, game)`.  The maximal
set is traversed as a deduplicated list (set iteration order is
irrelevant: the result is a set of actions). -/
def best_response (player : PlayerS ι A M) (other : ActionProfileS ι A)
    (g : PosetalGameS ι A M) : Except Err (Finset A) :=
  match induced_preorder_actions_of_player g player.player_id other with
  | .error e => .error e
  | .ok pre =>
    match mapO (fun ap => lookupA ap.entries player.player_id)
        (maximal_elements_list pre) with
    | none => .error .keyError
    | some acts => .ok acts.toFinset

/-- `game_from_preference_dict(base_game, preference_dict)`: players whose
id is missing from the dict are kept unchanged (the code only prints a
warning); the others are rebuilt through the `Player` constructor; then a
new game is constructed. -/
def game_from_preference_dict (base : PosetalGameS ι A M)
    (d : List (ι × PreOrderS M)) : Except Err (PosetalGameS ι A M) :=
  match mapE (fun p =>
      match lookupA d p.player_id with
      | none => .ok p
      | some pref => mkPlayer p.player_id p.actions p.metrics pref)
      base.players with
  | .error e => .error e
  | .ok new_players => mkPosetalGame new_players

/-! ### nash_finder.py -/

/-- The player loop of `is_pure_nash_equilibrium`. -/
def is_pure_nash_go (g : PosetalGameS ι A M) (ap : ActionProfileS ι A) :
    List (PlayerS ι A M) → Except Err Bool
  | [] => .ok true
  | p :: ps =>
    match lookupA ap.entries p.player_id with
    | none => .error .keyError
    | some current =>
      match best_response p ap g with
      | .error e => .error e
      | .ok br => if current ∈ br then is_pure_nash_go g ap ps else .ok false

/-- `is_pure_nash_equilibrium(game, action_profile)`. -/
def is_pure_nash_equilibrium (g : PosetalGameS ι A M)
    (ap : ActionProfileS ι A) : Except Err Bool :=
  is_pure_nash_go g ap g.players

/-- One step of the scan of `find_pure_nash_equilibria`: keep the
accumulated set as a deduplicated list, adding the profile when the NE
check succeeds. -/
def pure_ne_step (g : PosetalGameS ι A M) (s : List (ActionProfileS ι A))
    (ap : ActionProfileS ι A) : Except Err (List (ActionProfileS ι A)) :=
  Except.map
    (fun b => if b then (if ap ∈ s then s else s ++ [ap]) else s)
    (is_pure_nash_equilibrium g ap)

/-- The scan of `find_pure_nash_equilibria`, keeping the accumulated set
as a deduplicated list in discovery order. -/
def find_pure_ne_list (g : PosetalGameS ι A M) :
    Except Err (List (ActionProfileS ι A)) :=
  foldlE (pure_ne_step g) [] g.action_profiles

/-- `find_pure_nash_equilibria(game)`. -/
def find_pure_nash_equilibria (g : PosetalGameS ι A M) :
    Except Err (Finset (ActionProfileS ι A)) :=
  Except.map List.toFinset (find_pure_ne_list g)

/-- The player loop of `action_profile_is_dominated`, with the
`exist_strict_leq` flag. -/
def dominated_go (g : PosetalGameS ι A M) (ap1 ap2 : ActionProfileS ι A) :
    List (PlayerS ι A M) → Bool → Bool
  | [], flag => flag
  | p :: ps, flag =>
    let pre := getInduced g p.player_id
    if ¬ pre.leq ap1 ap2 then false
    else if pre.less ap1 ap2 then dominated_go g ap1 ap2 ps true
    else dominated_go g ap1 ap2 ps flag

/-- `action_profile_is_dominated(game, ap1, ap2)`. -/
def action_profile_is_dominated (g : PosetalGameS ι A M)
    (ap1 ap2 : ActionProfileS ι A) : Bool :=
  dominated_go g ap1 ap2 g.players false

/-- `find_admissible_nash_equilibria(game)`: start from the pure NE set and
discard every `ne1` dominated by some other `ne2` (the pair loop is
`itertools.product` over the NE set; the accumulated set is kept as a
deduplicated list, `discard` is `List.erase`). -/
def find_admissible_nash_equilibria (g : PosetalGameS ι A M) :
    Except Err (Finset (ActionProfileS ι A)) :=
  match find_pure_ne_list g with
  | .error e => .error e
  | .ok ne =>
    .ok ((product2 ne).foldl
      (fun acc p =>
        if p.1 ≠ p.2 ∧ action_profile_is_dominated g p.1 p.2 then acc.erase p.1
        else acc)
      ne).toFinset

/-- `find_admissible_nash_equilibria_with_preferences(base_game,
preference_dict)`. -/
def find_admissible_nash_equilibria_with_preferences
    (base : PosetalGameS ι A M) (d : List (ι × PreOrderS M)) :
    Except Err (Finset (ActionProfileS ι A)) :=
  match game_from_preference_dict base d with
  | .error e => .error e
  | .ok g => find_admissible_nash_equilibria g

/-! ### Claim C8 -/

/-- A trivial one-element partial order over metric name 0, for concrete
games. -/
def prefSingle0 : PreOrderS Nat :=
  (mkPartialOrder [0] (∅ : Finset (Nat × Nat))).toOption.getD default

/-- A concrete player: id 0, actions {0, 1}, one metric (named 0) that
rewards action 0. -/
def c8_player : PlayerS Nat Nat Nat :=
  (mkPlayer 0 [0, 1]
    [⟨0, fun ap => if ap.get? 0 = some 0 then 1 else 0⟩]
    prefSingle0).toOption.getD ⟨0, [], [], default⟩

/-- A concrete one-player base game. -/
def c8_base : PosetalGameS Nat Nat Nat :=
  (mkPosetalGame [c8_player]).toOption.getD default

/-! ### A concrete two-player coordination game

Used to exercise the equilibrium pipeline on a multi-player game: both
players (ids 0 and 1, actions {0, 1}) share one metric (named 0) paying 1
on the profile (0, 0), 2 on (1, 1) and 0 off-diagonal, so both diagonal
profiles are pure Nash equilibria and (0, 0) is Pareto-dominated by
(1, 1). -/

def coordOutcome : ActionProfileS Nat Nat → Int := fun ap =>
  match lookupA ap.entries 0, lookupA ap.entries 1 with
  | some a, some b => if a = b then (if a = 1 then 2 else 1) else 0
  | _, _ => 0

def coordPlayer0 : PlayerS Nat Nat Nat :=
  ⟨0, [0, 1], [⟨0, coordOutcome⟩], prefSingle0⟩

def coordPlayer1 : PlayerS Nat Nat Nat :=
  ⟨1, [0, 1], [⟨0, coordOutcome⟩], prefSingle0⟩

def coordGame : PosetalGameS Nat Nat Nat :=
  (mkPosetalGame [coordPlayer0, coordPlayer1]).toOption.getD default

/-! ### Claim C2 -/

/-- A concrete valid player for C2: one metric (named 0) rewarding the
action 0 of player id 0, single-element priority order. -/
def c2_player : PlayerS Nat Nat Nat :=
  (mkPlayer 0 [0, 1]
    [⟨0, fun ap => if ap.get? 0 = some 0 then 1 else 0⟩]
    prefSingle0).toOption.getD ⟨0, [], [], default⟩

/-- The profile where player 0 plays 0 (metric value 1). -/
def c2_x : ActionProfileS Nat Nat := ⟨[(0, 0)]⟩

/-- The profile where player 0 plays 1 (metric value 0). -/
def c2_y : ActionProfileS Nat Nat := ⟨[(0, 1)]⟩

/-! ### Claim C4: linear-extension enumeration

The development below characterizes `completions_of_poset` on every
successfully constructed `PartialOrder` whose relation set is over its
element set. -/

/-- Position of an element in a list (length when absent). -/
def posIn (l : List α) (a : α) : Nat := l.findIdx fun x => decide (x = a)

/-- `a` occurs strictly before `b` in `ℓ`. -/
def Before (l : List α) (a b : α) : Prop := posIn l a < posIn l b

/-- The vertex set of an edge list. -/
def vertsOf (E : List (Nat × Nat)) : Finset Nat :=
  (E.map Prod.fst).toFinset ∪ (E.map Prod.snd).toFinset

/-- The vertices strictly between `u` and `v`. -/
def betweenF (E : List (Nat × Nat)) (u v : Nat) : Finset Nat :=
  (vertsOf E).filter fun w =>
    reachb E u w = true ∧ reachb E w v = true ∧ w ≠ u ∧ w ≠ v

/-- The predecessors (within `keys`) of `v` in the adjacency `succs`. -/
def predsOf (keys : List α) (succs : α → List α) (v : α) : List α :=
  keys.filter fun u => decide (v ∈ succs u)

/-- The number of predecessors of `v` not yet placed in `ord` (the value
`indeg[v]` maintained by the backtracking). -/
def cnt (keys : List α) (succs : α → List α) (ord : List α) (v : α) : Nat :=
  ((predsOf keys succs v).filter fun u => decide (u ∉ ord)).length

/-- Invariant of the backtracking state: the placed prefix is a
duplicate-free topological prefix, `avail` is exactly the set of ready
elements, and `ind` stores the pending-predecessor counts. -/
def BTInv (keys : List α) (succs : α → List α)
    (ord avail : List α) (ind : List (α × Nat)) : Prop :=
  ord.Nodup ∧ (∀ x ∈ ord, x ∈ keys) ∧
  (∀ u v, v ∈ succs u → v ∈ ord → u ∈ ord ∧ posIn ord u < posIn ord v) ∧
  avail.Nodup ∧
  (∀ x, x ∈ avail ↔ x ∈ keys ∧ x ∉ ord ∧ ∀ u, x ∈ succs u → u ∈ ord) ∧
  ind = keys.map fun v => (v, cnt keys succs ord v)

theorem mapE_congr {ε β γ : Type} {f g : β → Except ε γ} {l : List β}
    (h : ∀ x ∈ l, f x = g x) : mapE f l = mapE g l := by
  induction l with
  | nil => rfl
  | cons x xs ih =>
    simp only [mapE, h x (List.mem_cons_self ..),
      ih fun y hy => h y (List.mem_cons_of_mem _ hy)]

theorem mapO_congr {β γ : Type} {f g : β → Option γ} {l : List β}
    (h : ∀ x ∈ l, f x = g x) : mapO f l = mapO g l := by
  induction l with
  | nil => rfl
  | cons x xs ih =>
    simp only [mapO, h x (List.mem_cons_self ..),
      ih fun y hy => h y (List.mem_cons_of_mem _ hy)]

theorem mem_combinations2 {α : Type} {l : List α} {a b : α}
    (h : (a, b) ∈ combinations2 l) : a ∈ l ∧ b ∈ l := by
  induction l with
  | nil => simp [combinations2] at h
  | cons x xs ih =>
    simp only [combinations2, List.mem_append, List.mem_map] at h
    rcases h with h | h
    · obtain ⟨y, hy, he⟩ := h
      cases he
      exact ⟨List.mem_cons_self .., List.mem_cons_of_mem _ hy⟩
    · obtain ⟨ha, hb⟩ := ih h
      exact ⟨List.mem_cons_of_mem _ ha, List.mem_cons_of_mem _ hb⟩

theorem combinations2_complete {α : Type} {l : List α} {a b : α}
    (hl : l.Nodup) (ha : a ∈ l) (hb : b ∈ l) (hne : a ≠ b) :
    (a, b) ∈ combinations2 l ∨ (b, a) ∈ combinations2 l := by
  induction l with
  | nil => simp at ha
  | cons x xs ih =>
    simp only [List.mem_cons] at ha hb
    simp only [combinations2, List.mem_append, List.mem_map]
    rcases ha with rfl | ha
    · rcases hb with rfl | hb
      · exact absurd rfl hne
      · exact Or.inl (Or.inl ⟨b, hb, rfl⟩)
    · rcases hb with rfl | hb
      · exact Or.inr (Or.inl ⟨a, ha, rfl⟩)
      · rcases ih (List.Nodup.of_cons hl) ha hb with h | h
        · exact Or.inl (Or.inr h)
        · exact Or.inr (Or.inr h)

theorem mem_product2 {α : Type} {l : List α} {a b : α} :
    (a, b) ∈ product2 l ↔ a ∈ l ∧ b ∈ l := by
  simp only [product2, List.mem_flatMap, List.mem_map, Prod.mk.injEq]
  constructor
  · rintro ⟨x, hx, y, hy, rfl, rfl⟩
    exact ⟨hx, hy⟩
  · rintro ⟨ha, hb⟩
    exact ⟨a, ha, b, hb, rfl, rfl⟩

theorem subset_stepSet (E : List (α × α)) (S : Finset α) : S ⊆ stepSet E S :=
  Finset.subset_union_left

theorem mem_stepSet {E : List (α × α)} {S : Finset α} {b : α} :
    b ∈ stepSet E S ↔ b ∈ S ∨ ∃ a ∈ S, (a, b) ∈ E := by
  simp only [stepSet, Finset.mem_union, List.mem_toFinset, List.mem_map,
    List.mem_filter, decide_eq_true_eq]
  constructor
  · rintro (h | ⟨⟨x, y⟩, ⟨hxy, hx⟩, rfl⟩)
    · exact Or.inl h
    · exact Or.inr ⟨x, hx, hxy⟩
  · rintro (h | ⟨a, ha, hab⟩)
    · exact Or.inl h
    · exact Or.inr ⟨(a, b), ⟨hab, ha⟩, rfl⟩

theorem stepSet_subset_union (E : List (α × α)) (S : Finset α) :
    stepSet E S ⊆ S ∪ targetSet E := by
  intro b hb
  rcases mem_stepSet.mp hb with h | ⟨a, _, hab⟩
  · exact Finset.mem_union_left _ h
  · refine Finset.mem_union_right _ ?_
    simp only [targetSet, List.mem_toFinset, List.mem_map]
    exact ⟨(a, b), hab, rfl⟩

theorem iterStep_subset_union (E : List (α × α)) (S : Finset α) (n : Nat) :
    iterStep E n S ⊆ S ∪ targetSet E := by
  induction n with
  | zero => exact Finset.subset_union_left
  | succ n ih =>
    intro b hb
    rcases mem_stepSet.mp hb with h | ⟨a, ha, hab⟩
    · exact ih h
    · refine Finset.mem_union_right _ ?_
      simp only [targetSet, List.mem_toFinset, List.mem_map]
      exact ⟨(a, b), hab, rfl⟩

theorem iterStep_mono_succ (E : List (α × α)) (S : Finset α) (n : Nat) :
    iterStep E n S ⊆ iterStep E (n + 1) S :=
  subset_stepSet E (iterStep E n S)

theorem iterStep_mono (E : List (α × α)) (S : Finset α) {m n : Nat} (h : m ≤ n) :
    iterStep E m S ⊆ iterStep E n S := by
  induction n with
  | zero => cases Nat.le_zero.mp h; exact Finset.Subset.refl _
  | succ n ih =>
    rcases Nat.lt_or_ge m (n + 1) with hlt | hge
    · exact (ih (Nat.lt_succ_iff.mp hlt)).trans (iterStep_mono_succ E S n)
    · cases Nat.le_antisymm h hge
      exact Finset.Subset.refl _

theorem iterStep_fix (E : List (α × α)) (S : Finset α) {n : Nat}
    (h : iterStep E (n + 1) S = iterStep E n S) :
    ∀ m, n ≤ m → iterStep E m S = iterStep E n S := by
  intro m hm
  induction m with
  | zero => cases Nat.le_zero.mp hm; rfl
  | succ m ih =>
    rcases Nat.lt_or_ge n (m + 1) with hlt | hge
    · have hnm : n ≤ m := Nat.lt_succ_iff.mp hlt
      have : iterStep E (m + 1) S = stepSet E (iterStep E m S) := rfl
      rw [this, ih hnm]
      exact h
    · cases Nat.le_antisymm hm hge
      rfl

theorem iterStep_exists_fix (E : List (α × α)) (S : Finset α) :
    ∃ n ≤ (S ∪ targetSet E).card, iterStep E (n + 1) S = iterStep E n S := by
  by_contra hcon
  push_neg at hcon
  have hgrow : ∀ n ≤ (S ∪ targetSet E).card, n ≤ (iterStep E n S).card := by
    intro n hn
    induction n with
    | zero => exact Nat.zero_le _
    | succ n ih =>
      have hn' : n ≤ (S ∪ targetSet E).card := Nat.le_of_succ_le hn
      have hne := hcon n (by omega)
      have hsub : iterStep E n S ⊆ iterStep E (n + 1) S := iterStep_mono_succ E S n
      have hlt : (iterStep E n S).card < (iterStep E (n + 1) S).card :=
        Finset.card_lt_card (Finset.ssubset_iff_subset_ne.mpr ⟨hsub, fun he => hne he.symm⟩)
      omega
  have h1 := hgrow (S ∪ targetSet E).card (le_refl _)
  have h2 : (iterStep E (S ∪ targetSet E).card S).card ≤ (S ∪ targetSet E).card :=
    Finset.card_le_card (iterStep_subset_union E S _)
  have hne := hcon (S ∪ targetSet E).card (le_refl _)
  have hsub : iterStep E (S ∪ targetSet E).card S ⊆ iterStep E ((S ∪ targetSet E).card + 1) S :=
    iterStep_mono_succ E S _
  have hlt : (iterStep E (S ∪ targetSet E).card S).card
      < (iterStep E ((S ∪ targetSet E).card + 1) S).card :=
    Finset.card_lt_card (Finset.ssubset_iff_subset_ne.mpr ⟨hsub, fun he => hne he.symm⟩)
  have h3 : (iterStep E ((S ∪ targetSet E).card + 1) S).card ≤ (S ∪ targetSet E).card :=
    Finset.card_le_card (iterStep_subset_union E S _)
  omega

theorem iterStep_sound {E : List (α × α)} {S : Finset α} {b : α} {n : Nat}
    (hb : b ∈ iterStep E n S) : ∃ a ∈ S, Relation.ReflTransGen (EdgeRel E) a b := by
  induction n generalizing b with
  | zero => exact ⟨b, hb, Relation.ReflTransGen.refl⟩
  | succ n ih =>
    rcases mem_stepSet.mp hb with h | ⟨c, hc, hcb⟩
    · exact ih h
    · obtain ⟨a, ha, hpath⟩ := ih hc
      exact ⟨a, ha, hpath.tail hcb⟩

theorem iterStep_complete {E : List (α × α)} {S : Finset α} {a b : α}
    (ha : a ∈ S) (hpath : Relation.ReflTransGen (EdgeRel E) a b) :
    ∃ n, b ∈ iterStep E n S := by
  induction hpath with
  | refl => exact ⟨0, ha⟩
  | tail _ hedge ih =>
    obtain ⟨n, hn⟩ := ih
    exact ⟨n + 1, mem_stepSet.mpr (Or.inr ⟨_, hn, hedge⟩)⟩

theorem mem_iterStep_saturated {E : List (α × α)} {S : Finset α} {b : α} :
    b ∈ iterStep E ((S ∪ targetSet E).card + 1) S ↔
      ∃ a ∈ S, Relation.ReflTransGen (EdgeRel E) a b := by
  constructor
  · exact iterStep_sound
  · rintro ⟨a, ha, hpath⟩
    obtain ⟨n, hn⟩ := iterStep_complete ha hpath
    obtain ⟨k, hk, hfix⟩ := iterStep_exists_fix E S
    rcases Nat.le_total n ((S ∪ targetSet E).card + 1) with hle | hge
    · exact iterStep_mono E S hle hn
    · have h1 : iterStep E n S = iterStep E k S := iterStep_fix E S hfix n (by omega)
      have h2 : iterStep E ((S ∪ targetSet E).card + 1) S = iterStep E k S :=
        iterStep_fix E S hfix _ (by omega)
      rw [h2, ← h1]
      exact hn

theorem mem_succSet {E : List (α × α)} {a c : α} :
    c ∈ succSet E a ↔ (a, c) ∈ E := by
  simp only [succSet, List.mem_toFinset, List.mem_map, List.mem_filter, decide_eq_true_eq]
  constructor
  · rintro ⟨⟨x, y⟩, ⟨hxy, rfl⟩, rfl⟩
    exact hxy
  · intro h
    exact ⟨(a, c), ⟨h, rfl⟩, rfl⟩

theorem transGen_iff_head {β : Type} {r : β → β → Prop} {a b : β} :
    Relation.TransGen r a b ↔ ∃ c, r a c ∧ Relation.ReflTransGen r c b := by
  constructor
  · intro h
    induction h with
    | single h => exact ⟨_, h, Relation.ReflTransGen.refl⟩
    | tail _ hedge ih =>
      obtain ⟨c, hc, hpath⟩ := ih
      exact ⟨c, hc, hpath.tail hedge⟩
  · rintro ⟨c, hc, hpath⟩
    induction hpath with
    | refl => exact Relation.TransGen.single hc
    | tail _ hedge ih => exact ih.tail hedge

theorem reachb_iff {E : List (α × α)} {a b : α} :
    reachb E a b = true ↔ Reaches E a b := by
  rw [reachb, decide_eq_true_eq, reachSet, reachBound, mem_iterStep_saturated, Reaches,
    transGen_iff_head]
  constructor
  · rintro ⟨c, hc, hpath⟩
    exact ⟨c, mem_succSet.mp hc, hpath⟩
  · rintro ⟨c, hc, hpath⟩
    exact ⟨c, mem_succSet.mpr hc, hpath⟩

theorem hasCycleb_iff {E : List (α × α)} :
    hasCycleb E = true ↔ ∃ a, Reaches E a a := by
  simp only [hasCycleb, List.any_eq_true, List.mem_map]
  constructor
  · rintro ⟨a, _, hr⟩
    exact ⟨a, reachb_iff.mp hr⟩
  · rintro ⟨a, hr⟩
    rcases transGen_iff_head.mp hr with ⟨c, hac, _⟩
    exact ⟨a, ⟨(a, c), hac, rfl⟩, reachb_iff.mpr hr⟩

/-! ### Claim C1 -/

/-- C1: the claim says every constructed `PreOrder` stores a reflexive and
transitive relation set and construction never raises.  Counter-evaluation
at `E = {0,1,2}` (iterated 0,1,2) and `R = {(2,1),(1,0)}`: construction
succeeds, `(2,1)` and `(1,0)` are stored, yet `(2,0)` is missing, because
`_transitive_closure` (and `_validate`) visit each 3-subset through
`combinations(elements, 3)` in ascending order only, so the descending
chain `2 ≤ 1 ≤ 0` is never closed.  The stored relation set is not
transitive. -/
theorem c1_closure_not_transitive :
    Except.map
      (fun P : PreOrderS Nat =>
        decide ((2, 1) ∈ P.relations) && decide ((1, 0) ∈ P.relations) &&
          !(decide ((2, 0) ∈ P.relations)))
      (mkPreOrder [0, 1, 2] ({(2, 1), (1, 0)} : Finset (Nat × Nat)))
      = .ok true := by
  rfl

/-! ### Claim C7 -/

/-- C7: the claim says `PartialOrder` construction fails with the
antisymmetry error iff some 2-cycle between distinct elements survives the
closure.  Counter-evaluation at `E = {0,1,2,3,4}`,
`R = {(0,1),(1,0),(3,2),(4,3),(2,4)}`: the 2-cycle `(0,1)/(1,0)` is present
after closure, yet construction fails in `_build_hasse_diagram`
(`nx.transitive_reduction` on a cyclic class graph — the broken closure left
the strict cycle `2 < 4 < 3 < 2` intact) before `_validate` can raise the
antisymmetry error. -/
theorem c7_antisymmetry_error_preempted :
    mkPartialOrder [0, 1, 2, 3, 4]
        ({(0, 1), (1, 0), (3, 2), (4, 3), (2, 4)} : Finset (Nat × Nat))
      = .error .hasseCycle ∧
    (0, 1) ∈ reflexive_closure [0, 1, 2, 3, 4]
        (transitive_closure [0, 1, 2, 3, 4]
          ({(0, 1), (1, 0), (3, 2), (4, 3), (2, 4)} : Finset (Nat × Nat))) ∧
    (1, 0) ∈ reflexive_closure [0, 1, 2, 3, 4]
        (transitive_closure [0, 1, 2, 3, 4]
          ({(0, 1), (1, 0), (3, 2), (4, 3), (2, 4)} : Finset (Nat × Nat))) := by
  refine ⟨by rfl, by decide, by decide⟩

/-- C8: the claim says `with_preferences` with a preference map omitting a
player id present in the base game surfaces a `MissingPreferenceOverride`
error.  Counter-evaluation: the base game has player id 0, the empty
preference dict omits it, and `game_from_preference_dict` succeeds anyway,
returning a game with the original preference silently reused (the code
only prints a warning). -/
theorem c8_missing_override_not_surfaced :
    lookupA ([] : List (Nat × PreOrderS Nat)) c8_player.player_id = none ∧
    c8_base.players = [c8_player] ∧
    game_from_preference_dict c8_base [] = .ok c8_base := by
  refine ⟨rfl, by rfl, by rfl⟩

/-- C2 counterexample: the claim states that `x ≤ y` holds vacuously
whenever the GREATER set or the LESS set is empty.  At this concrete valid
player and profile pair the LESS set is empty (and the GREATER set is not)
while `_check_induced_leq` returns `False`: an empty LESS set with a
nonempty GREATER set makes the subset test fail, not succeed. -/
theorem c2_vacuity_clause_false :
    ¬ ((greaterNames c2_player c2_x c2_y = [] ∨ lessNames c2_player c2_x c2_y = []) →
      check_induced_leq c2_player c2_x c2_y = true) := by
  intro h
  have hless : lessNames c2_player c2_x c2_y = [] := by rfl
  have hchk := h (Or.inr hless)
  rw [show check_induced_leq c2_player c2_x c2_y = false from rfl] at hchk
  exact Bool.false_ne_true hchk

/-- C2 (amended): `x ≤ y` under the induced comparison iff every
GREATER-classified metric name reaches (along the priority edges, built
from the strict preference relation) some LESS-classified metric name; in
particular this holds vacuously whenever the GREATER set is empty (at
`x = x` both sets are empty, giving reflexivity), but an empty LESS set
with a nonempty GREATER set makes `x ≤ y` fail. -/
theorem c2_induced_leq_characterization (p : PlayerS ι A M)
    (hvalid : p.preference.elements.toFinset = (p.metrics.map MetricS.name).toFinset)
    (x y : ActionProfileS ι A) :
    (check_induced_leq p x y = true ↔
      ∀ g ∈ greaterNames p x y, ∃ l ∈ lessNames p x y,
        Reaches (preference_edges p.preference) g l) ∧
    (greaterNames p x y = [] → check_induced_leq p x y = true) ∧
    (greaterNames p x y ≠ [] → lessNames p x y = [] →
      check_induced_leq p x y = false) := by
  refine ⟨?_, ?_, ?_⟩
  · rw [check_induced_leq, List.all_eq_true]
    constructor
    · intro h g hg
      obtain ⟨l, hl, hr⟩ := List.any_eq_true.mp (h g hg)
      exact ⟨l, hl, reachb_iff.mp hr⟩
    · intro h g hg
      obtain ⟨l, hl, hr⟩ := h g hg
      exact List.any_eq_true.mpr ⟨l, hl, reachb_iff.mpr hr⟩
  · intro hg
    rw [check_induced_leq, hg]
    rfl
  · intro hg hl
    rw [check_induced_leq, hl]
    rcases hge : greaterNames p x y with _ | ⟨g, gs⟩
    · exact absurd hge hg
    · rfl

/-- C2 witness: the amended characterization applied to the concrete valid
player at the reflexive pair, where both tag sets are empty. -/
theorem c2_characterization_witness :
    (check_induced_leq c2_player c2_x c2_x = true ↔
      ∀ g ∈ greaterNames c2_player c2_x c2_x, ∃ l ∈ lessNames c2_player c2_x c2_x,
        Reaches (preference_edges c2_player.preference) g l) ∧
    (greaterNames c2_player c2_x c2_x = [] → check_induced_leq c2_player c2_x c2_x = true) ∧
    (greaterNames c2_player c2_x c2_x ≠ [] → lessNames c2_player c2_x c2_x = [] →
      check_induced_leq c2_player c2_x c2_x = false) :=
  c2_induced_leq_characterization c2_player (by rfl) c2_x c2_x

/-! ### Claim C5 -/

theorem coord_game_ok :
    mkPosetalGame [coordPlayer0, coordPlayer1] = .ok coordGame := by rfl

/-- On the two-player game the model's `best_response` succeeds for the
first (non-last) player: the restricted profiles are canonical, so
`build_sub_preorder`'s subset check passes exactly as Python's
content-based one does. -/
theorem coord_best_response_first_player :
    best_response coordPlayer0 (⟨[(0, 0), (1, 0)]⟩ : ActionProfileS Nat Nat)
      coordGame = .ok {0} := by rfl

theorem coord_pure_nash_profiles :
    is_pure_nash_equilibrium coordGame
      (⟨[(0, 0), (1, 0)]⟩ : ActionProfileS Nat Nat) = .ok true ∧
    is_pure_nash_equilibrium coordGame
      (⟨[(0, 1), (1, 0)]⟩ : ActionProfileS Nat Nat) = .ok false :=
  ⟨by rfl, by rfl⟩

/-- The Pareto filtering acts on the two-player game: of the two pure
Nash equilibria (0, 0) and (1, 1), the dominated one is discarded. -/
theorem coord_admissible :
    find_admissible_nash_equilibria coordGame =
      .ok {(⟨[(0, 1), (1, 1)]⟩ : ActionProfileS Nat Nat)} := by rfl

theorem is_pure_nash_go_iff (g : PosetalGameS ι A M) (ap : ActionProfileS ι A)
    (ps : List (PlayerS ι A M)) :
    is_pure_nash_go g ap ps = .ok true ↔
      ∀ p ∈ ps, ∃ a br, lookupA ap.entries p.player_id = some a ∧
        best_response p ap g = .ok br ∧ a ∈ br := by
  induction ps with
  | nil => simp [is_pure_nash_go]
  | cons p ps ih =>
    simp only [is_pure_nash_go]
    cases hcur : lookupA ap.entries p.player_id with
    | none =>
      constructor
      · intro h
        exact absurd h (by simp)
      · intro h
        obtain ⟨a, br, ha, _⟩ := h p (List.mem_cons_self ..)
        rw [hcur] at ha
        exact absurd ha (by simp)
    | some a =>
      cases hbr : best_response p ap g with
      | error e =>
        constructor
        · intro h
          exact absurd h (by simp)
        · intro h
          obtain ⟨a2, br, _, hb, _⟩ := h p (List.mem_cons_self ..)
          rw [hbr] at hb
          exact absurd hb (by simp)
      | ok br =>
        dsimp only
        by_cases hmem : a ∈ br
        · rw [if_pos hmem, ih]
          constructor
          · intro h
            intro q hq
            rcases List.mem_cons.mp hq with rfl | hq2
            · exact ⟨a, br, hcur, hbr, hmem⟩
            · exact h q hq2
          · intro h q hq
            exact h q (List.mem_cons_of_mem _ hq)
        · rw [if_neg hmem]
          constructor
          · intro h
            exact absurd h (by simp)
          · intro h
            obtain ⟨a2, br2, ha2, hb2, hm2⟩ := h p (List.mem_cons_self ..)
            rw [hcur] at ha2
            rw [hbr] at hb2
            cases Option.some.injEq .. ▸ ha2
            cases hb2
            exact absurd hm2 hmem

/-- C5: `is_pure_nash_equilibrium(game, profile)` returns `True` iff every
player's action in the profile belongs to that player's `best_response`
(which restricts the player's induced preorder to the profiles varying
only that player's action, takes the maximal elements, and projects to the
action component). -/
theorem c5_pure_nash_iff_best_response (g : PosetalGameS ι A M)
    (ap : ActionProfileS ι A) :
    is_pure_nash_equilibrium g ap = .ok true ↔
      ∀ p ∈ g.players, ∃ a br, lookupA ap.entries p.player_id = some a ∧
        best_response p ap g = .ok br ∧ a ∈ br :=
  is_pure_nash_go_iff g ap g.players

/-! ### Claim C6 -/

theorem dominated_go_iff (g : PosetalGameS ι A M) (x y : ActionProfileS ι A)
    (ps : List (PlayerS ι A M)) (flag : Bool) :
    dominated_go g x y ps flag = true ↔
      (∀ p ∈ ps, (getInduced g p.player_id).leq x y) ∧
      (flag = true ∨ ∃ p ∈ ps, (getInduced g p.player_id).less x y) := by
  induction ps generalizing flag with
  | nil => simp [dominated_go]
  | cons p ps ih =>
    simp only [dominated_go]
    by_cases hleq : (getInduced g p.player_id).leq x y
    · rw [if_neg (by simpa using hleq)]
      by_cases hless : (getInduced g p.player_id).less x y
      · rw [if_pos hless, ih]
        constructor
        · rintro ⟨hall, _⟩
          refine ⟨?_, Or.inr ⟨p, List.mem_cons_self .., hless⟩⟩
          intro q hq
          rcases List.mem_cons.mp hq with rfl | hq2
          · exact hleq
          · exact hall q hq2
        · rintro ⟨hall, _⟩
          exact ⟨fun q hq => hall q (List.mem_cons_of_mem _ hq), Or.inl rfl⟩
      · rw [if_neg hless, ih]
        constructor
        · rintro ⟨hall, hex⟩
          refine ⟨?_, ?_⟩
          · intro q hq
            rcases List.mem_cons.mp hq with rfl | hq2
            · exact hleq
            · exact hall q hq2
          · rcases hex with hf | ⟨q, hq, hl⟩
            · exact Or.inl hf
            · exact Or.inr ⟨q, List.mem_cons_of_mem _ hq, hl⟩
        · rintro ⟨hall, hex⟩
          refine ⟨fun q hq => hall q (List.mem_cons_of_mem _ hq), ?_⟩
          rcases hex with hf | ⟨q, hq, hl⟩
          · exact Or.inl hf
          · rcases List.mem_cons.mp hq with rfl | hq2
            · exact absurd hl hless
            · exact Or.inr ⟨q, hq2, hl⟩
    · rw [if_pos (by simpa using hleq)]
      constructor
      · intro h
        exact absurd h (by simp)
      · rintro ⟨hall, _⟩
        exact absurd (hall p (List.mem_cons_self ..)) hleq

/-- `action_profile_is_dominated` decides the claim's dominance predicate:
weak dominance for every player with strict dominance for at least one. -/
theorem action_profile_is_dominated_iff (g : PosetalGameS ι A M)
    (x y : ActionProfileS ι A) :
    action_profile_is_dominated g x y = true ↔
      (∀ p ∈ g.players, (getInduced g p.player_id).leq x y) ∧
      (∃ p ∈ g.players, (getInduced g p.player_id).less x y) := by
  rw [action_profile_is_dominated, dominated_go_iff]
  simp

theorem mem_foldl_erase {β : Type} [DecidableEq β] (Q : β × β → Prop)
    [DecidablePred Q] (pairs : List (β × β)) :
    ∀ acc : List β, acc.Nodup →
      (pairs.foldl (fun acc p => if Q p then acc.erase p.1 else acc) acc).Nodup ∧
      ∀ x, x ∈ pairs.foldl (fun acc p => if Q p then acc.erase p.1 else acc) acc ↔
        x ∈ acc ∧ ∀ p ∈ pairs, Q p → p.1 ≠ x := by
  induction pairs with
  | nil => intro acc hnd; simp [hnd]
  | cons q qs ih =>
    intro acc hnd
    simp only [List.foldl_cons]
    by_cases hq : Q q
    · rw [if_pos hq]
      obtain ⟨hnd2, hmem⟩ := ih (acc.erase q.1) (hnd.erase _)
      refine ⟨hnd2, fun x => ?_⟩
      rw [hmem x, List.Nodup.mem_erase_iff hnd]
      constructor
      · rintro ⟨⟨hne, hx⟩, hrest⟩
        refine ⟨hx, ?_⟩
        intro p hp hQp
        rcases List.mem_cons.mp hp with rfl | hp2
        · exact fun he => hne he.symm
        · exact hrest p hp2 hQp
      · rintro ⟨hx, hall⟩
        refine ⟨⟨fun he => hall q (List.mem_cons_self ..) hq he.symm, hx⟩, ?_⟩
        intro p hp hQp
        exact hall p (List.mem_cons_of_mem _ hp) hQp
    · rw [if_neg hq]
      obtain ⟨hnd2, hmem⟩ := ih acc hnd
      refine ⟨hnd2, fun x => ?_⟩
      rw [hmem x]
      constructor
      · rintro ⟨hx, hrest⟩
        refine ⟨hx, ?_⟩
        intro p hp hQp
        rcases List.mem_cons.mp hp with rfl | hp2
        · exact absurd hQp hq
        · exact hrest p hp2 hQp
      · rintro ⟨hx, hall⟩
        exact ⟨hx, fun p hp hQp => hall p (List.mem_cons_of_mem _ hp) hQp⟩

theorem pure_ne_step_error {g : PosetalGameS ι A M}
    {s : List (ActionProfileS ι A)} {ap : ActionProfileS ι A} {e : Err}
    (hp : is_pure_nash_equilibrium g ap = .error e) :
    pure_ne_step g s ap = .error e := by
  rw [pure_ne_step, hp]; rfl

theorem pure_ne_step_false {g : PosetalGameS ι A M}
    {s : List (ActionProfileS ι A)} {ap : ActionProfileS ι A}
    (hp : is_pure_nash_equilibrium g ap = .ok false) :
    pure_ne_step g s ap = .ok s := by
  rw [pure_ne_step, hp]; rfl

theorem pure_ne_step_true {g : PosetalGameS ι A M}
    {s : List (ActionProfileS ι A)} {ap : ActionProfileS ι A}
    (hp : is_pure_nash_equilibrium g ap = .ok true) :
    pure_ne_step g s ap = .ok (if ap ∈ s then s else s ++ [ap]) := by
  rw [pure_ne_step, hp]; rfl

theorem find_pure_go_spec (g : PosetalGameS ι A M)
    (l : List (ActionProfileS ι A)) :
    ∀ (acc ne : List (ActionProfileS ι A)), acc.Nodup →
      foldlE (pure_ne_step g) acc l = .ok ne →
      ne.Nodup ∧
      ∀ x, x ∈ ne ↔ x ∈ acc ∨ (x ∈ l ∧ is_pure_nash_equilibrium g x = .ok true) := by
  induction l with
  | nil =>
    intro acc ne hnd h
    cases h
    exact ⟨hnd, fun x => by simp⟩
  | cons ap aps ih =>
    intro acc ne hnd h
    rw [foldlE] at h
    cases hp : is_pure_nash_equilibrium g ap with
    | error e => rw [pure_ne_step_error hp] at h; exact absurd h (by simp)
    | ok b =>
      cases b with
      | false =>
        rw [pure_ne_step_false hp] at h
        obtain ⟨hnd2, hmem⟩ := ih acc ne hnd h
        refine ⟨hnd2, fun x => ?_⟩
        rw [hmem x]
        constructor
        · rintro (hx | ⟨hx, hok⟩)
          · exact Or.inl hx
          · exact Or.inr ⟨List.mem_cons_of_mem _ hx, hok⟩
        · rintro (hx | ⟨hx, hok⟩)
          · exact Or.inl hx
          · rcases List.mem_cons.mp hx with rfl | hx2
            · rw [hp] at hok
              exact absurd hok (by simp)
            · exact Or.inr ⟨hx2, hok⟩
      | true =>
        rw [pure_ne_step_true hp] at h
        by_cases hin : ap ∈ acc
        · rw [if_pos hin] at h
          obtain ⟨hnd2, hmem⟩ := ih acc ne hnd h
          refine ⟨hnd2, fun x => ?_⟩
          rw [hmem x]
          constructor
          · rintro (hx | ⟨hx, hok⟩)
            · exact Or.inl hx
            · exact Or.inr ⟨List.mem_cons_of_mem _ hx, hok⟩
          · rintro (hx | ⟨hx, hok⟩)
            · exact Or.inl hx
            · rcases List.mem_cons.mp hx with rfl | hx2
              · exact Or.inl hin
              · exact Or.inr ⟨hx2, hok⟩
        · rw [if_neg hin] at h
          have hnd3 : (acc ++ [ap]).Nodup := by
            simp [List.nodup_append, hnd, hin]
          obtain ⟨hnd2, hmem⟩ := ih (acc ++ [ap]) ne hnd3 h
          refine ⟨hnd2, fun x => ?_⟩
          rw [hmem x]
          simp only [List.mem_append, List.mem_cons, List.not_mem_nil, or_false]
          constructor
          · rintro ((hx | rfl) | ⟨hx, hok⟩)
            · exact Or.inl hx
            · exact Or.inr ⟨Or.inl rfl, hp⟩
            · exact Or.inr ⟨Or.inr hx, hok⟩
          · rintro (hx | ⟨rfl | hx, hok⟩)
            · exact Or.inl (Or.inl hx)
            · exact Or.inl (Or.inr rfl)
            · exact Or.inr ⟨hx, hok⟩

/-- C6: an action profile survives `find_admissible_nash_equilibria` iff it
is a pure Nash equilibrium and no other pure Nash equilibrium weakly
dominates it for every player with strict dominance for at least one
player. -/
theorem c6_admissible_characterization (g : PosetalGameS ι A M)
    (s : Finset (ActionProfileS ι A))
    (h : find_admissible_nash_equilibria g = .ok s) :
    ∃ ne, find_pure_nash_equilibria g = .ok ne ∧
      ∀ x, x ∈ s ↔ x ∈ ne ∧
        ¬ ∃ y ∈ ne, y ≠ x ∧
          (∀ p ∈ g.players, (getInduced g p.player_id).leq x y) ∧
          (∃ p ∈ g.players, (getInduced g p.player_id).less x y) := by
  rw [find_admissible_nash_equilibria] at h
  cases hl : find_pure_ne_list g with
  | error e => rw [hl] at h; exact absurd h (by simp)
  | ok nel =>
    rw [hl] at h
    obtain ⟨hnd, hmem⟩ := find_pure_go_spec g g.action_profiles [] nel (by simp) hl
    refine ⟨nel.toFinset, by rw [find_pure_nash_equilibria, hl]; rfl, ?_⟩
    intro x
    cases h
    obtain ⟨_, hfold⟩ := mem_foldl_erase
      (fun p => p.1 ≠ p.2 ∧ action_profile_is_dominated g p.1 p.2 = true)
      (product2 nel) nel hnd
    rw [List.mem_toFinset, hfold x]
    constructor
    · rintro ⟨hx, hall⟩
      refine ⟨List.mem_toFinset.mpr hx, ?_⟩
      rintro ⟨y, hy, hyx, hdom⟩
      refine hall (x, y) (mem_product2.mpr ⟨hx, List.mem_toFinset.mp hy⟩)
        ⟨fun he => hyx (Eq.symm he), ?_⟩ rfl
      exact (action_profile_is_dominated_iff g x y).mpr hdom
    · rintro ⟨hx, hnone⟩
      refine ⟨List.mem_toFinset.mp hx, ?_⟩
      rintro ⟨x2, y⟩ hp ⟨hne, hdom⟩ rfl
      exact hnone ⟨y, List.mem_toFinset.mpr (mem_product2.mp hp).2,
        fun he => hne he.symm, (action_profile_is_dominated_iff g x2 y).mp hdom⟩

/-- C6 witness: the characterization applied to the concrete two-player
coordination game, on which the Pareto filtering discards the dominated
equilibrium (0, 0) and keeps exactly (1, 1). -/
theorem c6_admissible_witness :
    ∃ ne, find_pure_nash_equilibria coordGame = .ok ne ∧
      ∀ x, x ∈ ({(⟨[(0, 1), (1, 1)]⟩ : ActionProfileS Nat Nat)} :
          Finset (ActionProfileS Nat Nat)) ↔ x ∈ ne ∧
        ¬ ∃ y ∈ ne, y ≠ x ∧
          (∀ p ∈ coordGame.players,
            (getInduced coordGame p.player_id).leq x y) ∧
          (∃ p ∈ coordGame.players,
            (getInduced coordGame p.player_id).less x y) :=
  c6_admissible_characterization coordGame
    {(⟨[(0, 1), (1, 1)]⟩ : ActionProfileS Nat Nat)} (by rfl)

/-! ### Claim C9 -/

/-- C9: `find_admissible_nash_equilibria_with_preferences` is determined by
the content of the preference dict: two dicts with identical lookup
behaviour (regardless of key insertion order) give identical results for
the same base game. -/
theorem c9_preference_content_determinism (base : PosetalGameS ι A M)
    (d1 d2 : List (ι × PreOrderS M)) (h : ∀ k, lookupA d1 k = lookupA d2 k) :
    find_admissible_nash_equilibria_with_preferences base d1 =
      find_admissible_nash_equilibria_with_preferences base d2 := by
  have hg : game_from_preference_dict base d1 = game_from_preference_dict base d2 := by
    rw [game_from_preference_dict, game_from_preference_dict,
      mapE_congr (fun p _ => by rw [h p.player_id])]
  rw [find_admissible_nash_equilibria_with_preferences,
    find_admissible_nash_equilibria_with_preferences, hg]

/-- C9 witness: two concrete preference dicts with the same content but
keys inserted in opposite orders give identical results on the concrete
base game. -/
theorem c9_determinism_witness :
    find_admissible_nash_equilibria_with_preferences c8_base
        [(0, prefSingle0), (1, prefSingle0)] =
      find_admissible_nash_equilibria_with_preferences c8_base
        [(1, prefSingle0), (0, prefSingle0)] :=
  c9_preference_content_determinism c8_base _ _ (by
    intro k
    show (if (0 : Nat) = k then some prefSingle0
        else if (1 : Nat) = k then some prefSingle0 else none) =
      (if (1 : Nat) = k then some prefSingle0
        else if (0 : Nat) = k then some prefSingle0 else none)
    split_ifs with h1 h2 h3 <;> first | rfl | omega)

/-! ### Claim C10 -/

/-- C10: `best_response(player, othersActions, game)` never reads the
queried player's own entry of `othersActions`: two profiles agreeing on
every other player id give the same best-response set. -/
theorem c10_best_response_ignores_own_entry (g : PosetalGameS ι A M)
    (p : PlayerS ι A M) (o1 o2 : ActionProfileS ι A)
    (h : ∀ q, q ≠ p.player_id → lookupA o1.entries q = lookupA o2.entries q) :
    best_response p o1 g = best_response p o2 g := by
  have hip : induced_preorder_actions_of_player g p.player_id o1 =
      induced_preorder_actions_of_player g p.player_id o2 := by
    rw [induced_preorder_actions_of_player, induced_preorder_actions_of_player,
      mapO_congr (fun q hq => h q (by
        have := List.mem_filter.mp hq
        exact fun he => by simp [he] at this))]
  rw [best_response, best_response, hip]

/-- C10 witness: on the concrete one-player game, two profiles that differ
only in player 0's own action give the same best response for player 0. -/
theorem c10_best_response_witness :
    best_response c8_player (⟨[(0, 0)]⟩ : ActionProfileS Nat Nat) c8_base =
      best_response c8_player (⟨[(0, 1)]⟩ : ActionProfileS Nat Nat) c8_base :=
  c10_best_response_ignores_own_entry c8_base c8_player _ _ (by
    intro q hq
    by_cases h0 : (0 : Nat) = q
    · exact absurd h0.symm hq
    · show (if (0 : Nat) = q then some 0 else none) =
        (if (0 : Nat) = q then some 1 else none)
      rw [if_neg h0, if_neg h0])

theorem posIn_cons (x : α) (l : List α) (a : α) :
    posIn (x :: l) a = if x = a then 0 else posIn l a + 1 := by
  by_cases h : x = a
  · simp [posIn, List.findIdx_cons, h]
  · simp [posIn, List.findIdx_cons, h]

theorem posIn_lt_length {l : List α} {a : α} (h : a ∈ l) :
    posIn l a < l.length := by
  induction l with
  | nil => simp at h
  | cons x xs ih =>
    rw [posIn_cons]
    by_cases hx : x = a
    · simp [hx]
    · rw [if_neg hx]
      rcases List.mem_cons.mp h with rfl | h2

      · exact absurd rfl hx
      · simpa using ih h2

theorem posIn_of_not_mem {l : List α} {a : α} (h : a ∉ l) :
    posIn l a = l.length := by
  induction l with
  | nil => rfl
  | cons x xs ih =>
    rw [posIn_cons, if_neg (fun he : x = a => h (he ▸ List.mem_cons_self x xs))]
    rw [ih fun h2 => h (List.mem_cons_of_mem _ h2)]
    rfl

theorem getElem?_posIn {l : List α} {a : α} (h : a ∈ l) :
    l[posIn l a]? = some a := by
  induction l with
  | nil => simp at h
  | cons x xs ih =>
    rw [posIn_cons]
    by_cases hx : x = a
    · simp [hx]
    · rw [if_neg hx]
      rcases List.mem_cons.mp h with rfl | h2
      · exact absurd rfl hx
      · simpa using ih h2

theorem posIn_getElem {l : List α} (hnd : l.Nodup) {i : Nat} (hi : i < l.length) :
    posIn l l[i] = i := by
  induction l generalizing i with
  | nil => simp at hi
  | cons x xs ih =>
    rw [posIn_cons]
    cases i with
    | zero => simp
    | succ n =>
      have hn : n < xs.length := by simpa using hi
      have hget : ((x :: xs)[n + 1] : α) = xs[n] := by simp
      have hmem : xs[n] ∈ xs := List.getElem_mem hn
      rw [hget, if_neg (fun he : x = xs[n] => (List.nodup_cons.mp hnd).1 (he ▸ hmem)),
        ih hnd.of_cons hn]

theorem posIn_inj {l : List α} {a b : α} (ha : a ∈ l) (hb : b ∈ l)
    (h : posIn l a = posIn l b) : a = b := by
  have h1 := getElem?_posIn ha
  have h2 := getElem?_posIn hb
  rw [h] at h1
  rw [h1] at h2
  exact Option.some.injEq .. ▸ h2

theorem before_trans {l : List α} {a b c : α} (h1 : Before l a b)
    (h2 : Before l b c) : Before l a c := Nat.lt_trans h1 h2

/-- Extraction of the construction pipeline from a successful
`mkPartialOrder`. -/
theorem mkPartialOrder_ok {elements : List α} {rels : Finset (α × α)}
    {P : PreOrderS α} (h : mkPartialOrder elements rels = .ok P) :
    P.elements = elements ∧
    P.relations = reflexive_closure elements (transitive_closure elements rels) ∧
    P.eqClasses = build_classes P.relations elements ∧
    hasCycleb (class_edges P.relations P.eqClasses) = false ∧
    P.hasseEdges = reductionOf (class_edges P.relations P.eqClasses) ∧
    validate_partialorder elements P.relations = none := by
  rw [mkPartialOrder, mkPreOrderWith] at h
  set r := reflexive_closure elements (transitive_closure elements rels) with hr
  set classes := build_classes r elements with hc
  rw [transitive_reduction] at h
  by_cases hcyc : hasCycleb (class_edges r classes) = true
  · rw [if_pos hcyc] at h
    exact absurd h (by simp)
  · rw [if_neg hcyc] at h
    cases hv : validate_partialorder elements r with
    | some e => rw [hv] at h; exact absurd h (by simp)
    | none =>
      rw [hv] at h
      cases h
      exact ⟨rfl, rfl, rfl, Bool.not_eq_true _ ▸ hcyc, rfl, hv⟩

/-- Antisymmetry over the element set, from a passed validation. -/
theorem validate_antisymmetric {elements : List α} {r : Finset (α × α)}
    (hnd : elements.Nodup) (hv : validate_partialorder elements r = none) :
    ∀ a b, a ∈ elements → b ∈ elements → (a, b) ∈ r → (b, a) ∈ r → a = b := by
  intro a b ha hb hab hba
  by_contra hne
  rw [validate_partialorder] at hv
  cases hvp : validate_preorder elements r with
  | some e => rw [hvp] at hv; exact absurd hv (by simp)
  | none =>
    rw [hvp] at hv
    by_cases hall : (combinations2 elements).all fun p =>
        !((p.1, p.2) ∈ r ∧ (p.2, p.1) ∈ r ∧ p.1 ≠ p.2 : Bool)
    · rw [List.all_eq_true] at hall
      rcases combinations2_complete hnd ha hb hne with hc | hc
      · have := hall (a, b) hc
        rw [Bool.not_eq_true', decide_eq_false_iff_not] at this
        exact this ⟨hab, hba, hne⟩
      · have := hall (b, a) hc
        rw [Bool.not_eq_true', decide_eq_false_iff_not] at this
        exact this ⟨hba, hab, fun he => hne he.symm⟩
    · rw [if_pos (by simpa using hall)] at hv
      exact absurd hv (by simp)

/-- Reflexivity over the element set, from a passed validation. -/
theorem validate_reflexive {elements : List α} {r : Finset (α × α)}
    (hv : validate_partialorder elements r = none) :
    ∀ a ∈ elements, (a, a) ∈ r := by
  intro a ha
  rw [validate_partialorder] at hv
  cases hvp : validate_preorder elements r with
  | some e => rw [hvp] at hv; exact absurd hv (by simp)
  | none =>
    rw [validate_preorder] at hvp
    by_cases hall : elements.all fun e => decide ((e, e) ∈ r)
    · rw [List.all_eq_true] at hall
      exact decide_eq_true_eq.mp (hall a ha)
    · rw [if_pos (by simpa using hall)] at hvp
      exact absurd hvp (by simp)

/-- The closure keeps the relation set inside `elements × elements` when
the input is inside it. -/
theorem closure_subset {elements : List α} {rels : Finset (α × α)}
    (hsub : ∀ p ∈ rels, p.1 ∈ elements ∧ p.2 ∈ elements) :
    ∀ p ∈ reflexive_closure elements (transitive_closure elements rels),
      p.1 ∈ elements ∧ p.2 ∈ elements := by
  have htri : ∀ t ∈ combinations3 elements, t.1 ∈ elements ∧ t.2.1 ∈ elements ∧
      t.2.2 ∈ elements := by
    intro t ht
    clear hsub
    induction elements with
    | nil => simp [combinations3] at ht
    | cons x xs ih =>
      simp only [combinations3, List.mem_append, List.mem_map] at ht
      rcases ht with ⟨p, hp, he⟩ | ht2
      · obtain ⟨h1, h2⟩ := mem_combinations2 hp
        cases he
        exact ⟨List.mem_cons_self .., List.mem_cons_of_mem _ h1,
          List.mem_cons_of_mem _ h2⟩
      · obtain ⟨h1, h2, h3⟩ := ih ht2
        exact ⟨List.mem_cons_of_mem _ h1, List.mem_cons_of_mem _ h2,
          List.mem_cons_of_mem _ h3⟩
  have hpass : ∀ (c : Finset (α × α)),
      (∀ p ∈ c, p.1 ∈ elements ∧ p.2 ∈ elements) →
      ∀ p ∈ (closurePass (combinations3 elements) c).1,
        p.1 ∈ elements ∧ p.2 ∈ elements := by
    intro c hc
    rw [closurePass]
    have : ∀ (ts : List (α × α × α)),
        (∀ t ∈ ts, t.1 ∈ elements ∧ t.2.1 ∈ elements ∧ t.2.2 ∈ elements) →
        ∀ (st : Finset (α × α) × Bool),
          (∀ p ∈ st.1, p.1 ∈ elements ∧ p.2 ∈ elements) →
          ∀ p ∈ (ts.foldl (fun acc t =>
            if (t.1, t.2.1) ∈ acc.1 ∧ (t.2.1, t.2.2) ∈ acc.1 ∧ (t.1, t.2.2) ∉ acc.1
            then (insert (t.1, t.2.2) acc.1, true) else acc) st).1,
            p.1 ∈ elements ∧ p.2 ∈ elements := by
      intro ts
      induction ts with
      | nil => intro _ st hst p hp; exact hst p hp
      | cons t ts ih =>
        intro hts st hst
        rw [List.foldl_cons]
        refine ih (fun u hu => hts u (List.mem_cons_of_mem _ hu)) _ ?_
        by_cases hcond : (t.1, t.2.1) ∈ st.1 ∧ (t.2.1, t.2.2) ∈ st.1 ∧
            (t.1, t.2.2) ∉ st.1
        · rw [if_pos hcond]
          intro p hp
          rcases Finset.mem_insert.mp hp with rfl | hp2
          · obtain ⟨h1, _, h3⟩ := hts t (List.mem_cons_self ..)
            exact ⟨h1, h3⟩
          · exact hst p hp2
        · rw [if_neg hcond]
          exact hst
    exact this (combinations3 elements) htri (c, false) hc
  have hloop : ∀ (n : Nat) (c : Finset (α × α)),
      (∀ p ∈ c, p.1 ∈ elements ∧ p.2 ∈ elements) →
      ∀ p ∈ closureLoop n (combinations3 elements) c,
        p.1 ∈ elements ∧ p.2 ∈ elements := by
    intro n
    induction n with
    | zero => intro c hc; exact hc
    | succ n ih =>
      intro c hc
      rw [closureLoop]
      by_cases hb : (closurePass (combinations3 elements) c).2
      · rw [if_pos hb]
        exact ih _ (hpass c hc)
      · rw [if_neg hb]
        exact hpass c hc
  have hrefl : ∀ (c : Finset (α × α)),
      (∀ p ∈ c, p.1 ∈ elements ∧ p.2 ∈ elements) →
      ∀ p ∈ reflexive_closure elements c, p.1 ∈ elements ∧ p.2 ∈ elements := by
    have : ∀ (l : List α), (∀ e ∈ l, e ∈ elements) →
        ∀ (c : Finset (α × α)), (∀ p ∈ c, p.1 ∈ elements ∧ p.2 ∈ elements) →
        ∀ p ∈ l.foldl (fun acc e => insert (e, e) acc) c,
          p.1 ∈ elements ∧ p.2 ∈ elements := by
      intro l
      induction l with
      | nil => intro _ c hc; exact hc
      | cons e l ih =>
        intro hl c hc
        rw [List.foldl_cons]
        refine ih (fun x hx => hl x (List.mem_cons_of_mem _ hx)) _ ?_
        intro p hp
        rcases Finset.mem_insert.mp hp with rfl | hp2
        · exact ⟨hl e (List.mem_cons_self ..), hl e (List.mem_cons_self ..)⟩
        · exact hc p hp2
    exact this elements (fun e he => he)
  exact hrefl _ (hloop _ rels hsub)

/-- On an antisymmetric reflexive relation over a duplicate-free element
list, every equivalence class is a singleton, in element order. -/
theorem build_classes_singletons {r : Finset (α × α)} {elements : List α}
    (hanti : ∀ a b, a ∈ elements → b ∈ elements → (a, b) ∈ r → (b, a) ∈ r → a = b)
    (hnd : elements.Nodup) :
    build_classes r elements = elements.map fun e => [e] := by
  have main : ∀ (rest done : List α),
      (∀ a b, a ∈ done ++ rest → b ∈ done ++ rest → (a, b) ∈ r → (b, a) ∈ r → a = b) →
      (done ++ rest).Nodup →
      rest.foldl
        (fun classes e =>
          match classes.findIdx? (fun c =>
              decide ((e, c.headD e) ∈ r ∧ (c.headD e, e) ∈ r)) with
          | some i => classes.set i (classes.getD i [] ++ [e])
          | none => classes ++ [[e]])
        (done.map fun e => [e]) = (done ++ rest).map fun e => [e] := by
    intro rest
    induction rest with
    | nil => intro done _ _; simp
    | cons e tail ih =>
      intro done hanti2 hnd2
      rw [List.foldl_cons]
      have hnone : (done.map fun x => [x]).findIdx?
          (fun c => decide ((e, c.headD e) ∈ r ∧ (c.headD e, e) ∈ r)) = none := by
        rw [List.findIdx?_eq_none_iff]
        intro c hc
        obtain ⟨x, hx, rfl⟩ := List.mem_map.mp hc
        rw [decide_eq_false_iff_not]
        rintro ⟨h1, h2⟩
        have hex : e = x := hanti2 e x
          (by simp) (by simp [hx]) (by simpa using h1) (by simpa using h2)
        have : e ∉ done := by
          have := (List.nodup_append.mp hnd2).2.2
          intro hed
          exact List.disjoint_left.mp this hed (List.mem_cons_self ..)
        exact this (hex ▸ hx)
      rw [hnone]
      have hre : done.map (fun x => [x]) ++ [[e]] = (done ++ [e]).map fun x => [x] := by
        simp
      rw [hre]
      have := ih (done ++ [e])
        (by intro a b ha hb; exact hanti2 a b (by simpa using ha) (by simpa using hb))
        (by simpa using hnd2)
      rw [this]
      simp

  have := main elements []
  rw [build_classes]
  simpa using this (by simpa using hanti) (by simpa using hnd)

theorem foldl_append_filterMap {β γ : Type} (f : β → Option γ) (l : List β) :
    ∀ acc : List γ,
      l.foldl (fun es x => match f x with
        | some y => es ++ [y]
        | none => es) acc = acc ++ l.filterMap f := by
  induction l with
  | nil => intro acc; simp
  | cons x xs ih =>
    intro acc
    rw [List.foldl_cons, List.filterMap_cons]
    cases hf : f x with
    | none => rw [ih acc]
    | some y => rw [ih (acc ++ [y])]; simp

theorem mem_combinations2_append_single {l : List α} {x a b : α} :
    (a, b) ∈ combinations2 (l ++ [x]) ↔
      (a, b) ∈ combinations2 l ∨ (a ∈ l ∧ b = x) := by
  induction l with
  | nil => simp [combinations2]
  | cons y ys ih =>
    simp only [List.cons_append, combinations2, List.mem_append, List.mem_map,
      Prod.mk.injEq, List.mem_cons, ih, List.mem_singleton]
    aesop

theorem mem_combinations2_range {n a b : Nat} :
    (a, b) ∈ combinations2 (List.range n) ↔ a < b ∧ b < n := by
  induction n with
  | zero => simp [combinations2]
  | succ n ih =>
    rw [List.range_succ, mem_combinations2_append_single, ih]
    simp only [List.mem_range]
    omega

/-- Characterization of the class-graph edges when all classes are
singletons: exactly the strictly related ordered pairs of indices. -/
theorem mem_class_edges {r : Finset (α × α)} {elements : List α}
    (hanti : ∀ a b, a ∈ elements → b ∈ elements → (a, b) ∈ r → (b, a) ∈ r → a = b)
    (hnd : elements.Nodup) {u v : Nat} :
    (u, v) ∈ class_edges r (elements.map fun e => [e]) ↔
      ∃ hu : u < elements.length, ∃ hv : v < elements.length,
        (elements[u], elements[v]) ∈ r ∧ (elements[v], elements[u]) ∉ r := by
  rw [class_edges]
  have hfold : ∀ (combos : List (Nat × Nat)) (acc : List (Nat × Nat)),
      combos.foldl
        (fun es ij =>
          match ((elements.map fun e => [e]).getD ij.1 []).head?,
              ((elements.map fun e => [e]).getD ij.2 []).head? with
          | some ra, some rb =>
            if (ra, rb) ∈ r ∧ (rb, ra) ∉ r then es ++ [ij]
            else if (rb, ra) ∈ r ∧ (ra, rb) ∉ r then es ++ [(ij.2, ij.1)]
            else es
          | _, _ => es)
        acc =
      acc ++ combos.filterMap (fun ij =>
        match ((elements.map fun e => [e]).getD ij.1 []).head?,
            ((elements.map fun e => [e]).getD ij.2 []).head? with
        | some ra, some rb =>
          if (ra, rb) ∈ r ∧ (rb, ra) ∉ r then some ij
          else if (rb, ra) ∈ r ∧ (ra, rb) ∉ r then some (ij.2, ij.1)
          else none
        | _, _ => none) := by
    intro combos
    induction combos with
    | nil => intro acc; simp
    | cons ij tl ih =>
      intro acc
      rw [List.foldl_cons, List.filterMap_cons]
      cases h1 : ((elements.map fun e => [e]).getD ij.1 []).head? with
      | none => rw [ih]
      | some ra =>
        cases h2 : ((elements.map fun e => [e]).getD ij.2 []).head? with
        | none => rw [ih]
        | some rb =>
          dsimp only
          by_cases hc1 : (ra, rb) ∈ r ∧ (rb, ra) ∉ r
          · rw [if_pos hc1, if_pos hc1, ih]
            simp
          · rw [if_neg hc1, if_neg hc1]
            by_cases hc2 : (rb, ra) ∈ r ∧ (ra, rb) ∉ r
            · rw [if_pos hc2, if_pos hc2, ih]
              simp
            · rw [if_neg hc2, if_neg hc2, ih]
  rw [List.length_map, hfold, List.nil_append, List.mem_filterMap]
  have hhead : ∀ (i : Nat) (hi : i < elements.length),
      ((elements.map fun e => [e]).getD i []).head? = some elements[i] := by
    intro i hi
    rw [List.getD_eq_getElem?_getD, List.getElem?_map]
    rw [List.getElem?_eq_getElem hi]
    rfl
  constructor
  · rintro ⟨ij, hij, hbr⟩
    obtain ⟨hab, hbn⟩ := mem_combinations2_range.mp hij
    have hi : ij.1 < elements.length := by omega
    have hj : ij.2 < elements.length := by omega
    simp only [hhead ij.1 hi, hhead ij.2 hj] at hbr
    by_cases hc1 : (elements[ij.1], elements[ij.2]) ∈ r ∧
        (elements[ij.2], elements[ij.1]) ∉ r
    · rw [if_pos hc1] at hbr
      cases hbr
      exact ⟨hi, hj, hc1⟩
    · rw [if_neg hc1] at hbr
      by_cases hc2 : (elements[ij.2], elements[ij.1]) ∈ r ∧
          (elements[ij.1], elements[ij.2]) ∉ r
      · rw [if_pos hc2] at hbr
        cases hbr
        exact ⟨hj, hi, hc2⟩
      · rw [if_neg hc2] at hbr
        exact absurd hbr (by simp)
  · rintro ⟨hu, hv, huv, hvu⟩
    have hne : u ≠ v := by
      intro he
      exact hvu (he ▸ huv)
    rcases Nat.lt_or_ge u v with hlt | hge
    · refine ⟨(u, v), mem_combinations2_range.mpr ⟨hlt, hv⟩, ?_⟩
      simp only [hhead u hu, hhead v hv]
      rw [if_pos ⟨huv, hvu⟩]
    · have hlt : v < u := by omega
      refine ⟨(v, u), mem_combinations2_range.mpr ⟨hlt, hu⟩, ?_⟩
      simp only [hhead v hv, hhead u hu]
      by_cases hc1 : (elements[v], elements[u]) ∈ r ∧ (elements[u], elements[v]) ∉ r
      · exact absurd hc1.1 hvu
      · rw [if_neg hc1, if_pos ⟨huv, hvu⟩]

theorem mem_trel {l : List α} {a b : α} :
    (a, b) ∈ trel l ↔ ∃ i j : Nat, i ≤ j ∧ l[i]? = some a ∧ l[j]? = some b := by
  rw [trel, List.mem_toFinset, List.mem_map]
  constructor
  · rintro ⟨⟨⟨i, x⟩, ⟨j, y⟩⟩, hmem, he⟩
    rw [List.mem_filter] at hmem
    have hprod := List.pair_mem_product.mp hmem.1
    have hle : i ≤ j := by simpa using hmem.2
    obtain ⟨rfl, rfl⟩ : x = a ∧ y = b := by simpa [Prod.ext_iff] using he
    exact ⟨i, j, hle, List.mk_mem_enum_iff_getElem?.mp hprod.1,
      List.mk_mem_enum_iff_getElem?.mp hprod.2⟩
  · rintro ⟨i, j, hle, ha, hb⟩
    refine ⟨((i, a), (j, b)), ?_, rfl⟩
    rw [List.mem_filter]
    exact ⟨List.pair_mem_product.mpr ⟨List.mk_mem_enum_iff_getElem?.mpr ha,
      List.mk_mem_enum_iff_getElem?.mpr hb⟩, by simpa using hle⟩

theorem mem_trel_nodup {l : List α} (hnd : l.Nodup) {a b : α} :
    (a, b) ∈ trel l ↔ a ∈ l ∧ b ∈ l ∧ posIn l a ≤ posIn l b := by
  rw [mem_trel]
  constructor
  · rintro ⟨i, j, hle, ha, hb⟩
    obtain ⟨hi, rfl⟩ := List.getElem?_eq_some_iff.mp ha
    obtain ⟨hj, rfl⟩ := List.getElem?_eq_some_iff.mp hb
    rw [posIn_getElem hnd hi, posIn_getElem hnd hj]
    exact ⟨List.getElem_mem hi, List.getElem_mem hj, hle⟩
  · rintro ⟨ha, hb, hle⟩
    exact ⟨posIn l a, posIn l b, hle, getElem?_posIn ha, getElem?_posIn hb⟩

theorem trel_trans {l : List α} (hnd : l.Nodup) :
    ∀ a b c, (a, b) ∈ trel l → (b, c) ∈ trel l → (a, c) ∈ trel l := by
  intro a b c h1 h2
  rw [mem_trel_nodup hnd] at h1 h2 ⊢
  exact ⟨h1.1, h2.2.1, Nat.le_trans h1.2.2 h2.2.2⟩

theorem trel_refl {l : List α} (hnd : l.Nodup) : ∀ e ∈ l, (e, e) ∈ trel l := by
  intro e he
  rw [mem_trel_nodup hnd]
  exact ⟨he, he, Nat.le_refl _⟩

theorem trel_antisymm {l : List α} (hnd : l.Nodup) :
    ∀ a b, (a, b) ∈ trel l → (b, a) ∈ trel l → a = b := by
  intro a b h1 h2
  rw [mem_trel_nodup hnd] at h1 h2
  exact posIn_inj h1.1 h2.1 (Nat.le_antisymm h1.2.2 h2.2.2)

/-- `closurePass` is the identity on a transitive relation set. -/
theorem closurePass_of_transitive {c : Finset (α × α)}
    (ht : ∀ a b d, (a, b) ∈ c → (b, d) ∈ c → (a, d) ∈ c)
    (ts : List (α × α × α)) : closurePass ts c = (c, false) := by
  rw [closurePass]
  induction ts with
  | nil => rfl
  | cons t ts ih =>
    rw [List.foldl_cons, if_neg]
    · exact ih
    · rintro ⟨h1, h2, h3⟩
      exact h3 (ht _ _ _ h1 h2)

theorem closureLoop_of_transitive {c : Finset (α × α)}
    (ht : ∀ a b d, (a, b) ∈ c → (b, d) ∈ c → (a, d) ∈ c)
    (ts : List (α × α × α)) : ∀ n, closureLoop n ts c = c := by
  intro n
  cases n with
  | zero => rfl
  | succ n =>
    rw [closureLoop, closurePass_of_transitive ht ts]
    rfl

theorem reflexive_closure_of_reflexive {c : Finset (α × α)} {l : List α}
    (h : ∀ e ∈ l, (e, e) ∈ c) : reflexive_closure l c = c := by
  rw [reflexive_closure]
  induction l with
  | nil => rfl
  | cons e es ih =>
    rw [List.foldl_cons, Finset.insert_eq_self.mpr (h e (List.mem_cons_self ..))]
    exact ih fun x hx => h x (List.mem_cons_of_mem _ hx)

theorem validate_preorder_none_of {elements : List α} {r : Finset (α × α)}
    (hrefl : ∀ e ∈ elements, (e, e) ∈ r)
    (htrans : ∀ a b c, (a, b) ∈ r → (b, c) ∈ r → (a, c) ∈ r) :
    validate_preorder elements r = none := by
  rw [validate_preorder, if_neg, if_neg]
  · simp only [not_not, List.all_eq_true]
    intro t _
    simp only [Bool.not_eq_true', decide_eq_false_iff_not]
    rintro ⟨h1, h2, h3⟩
    exact h3 (htrans _ _ _ h1 h2)
  · simp only [not_not, List.all_eq_true]
    intro e he
    exact decide_eq_true_eq.mpr (hrefl e he)

theorem validate_partialorder_none_of {elements : List α} {r : Finset (α × α)}
    (hrefl : ∀ e ∈ elements, (e, e) ∈ r)
    (htrans : ∀ a b c, (a, b) ∈ r → (b, c) ∈ r → (a, c) ∈ r)
    (hanti : ∀ a b, (a, b) ∈ r → (b, a) ∈ r → a = b) :
    validate_partialorder elements r = none := by
  rw [validate_partialorder, validate_preorder_none_of hrefl htrans, if_neg]
  simp only [not_not, List.all_eq_true]
  intro p _
  simp only [Bool.not_eq_true', decide_eq_false_iff_not]
  rintro ⟨h1, h2, h3⟩
  exact h3 (hanti _ _ h1 h2)

/-- Strict reachability over a set of increasing index pairs only goes up. -/
theorem reaches_lt {E : List (Nat × Nat)} (hE : ∀ uv ∈ E, uv.1 < uv.2)
    {a b : Nat} (h : Reaches E a b) : a < b := by
  induction h with
  | single h1 => exact hE _ h1
  | tail _ h1 ih => exact Nat.lt_trans ih (hE _ h1)

theorem hasCycleb_false_of_increasing {E : List (Nat × Nat)}
    (hE : ∀ uv ∈ E, uv.1 < uv.2) : hasCycleb E = false := by
  rw [Bool.eq_false_iff]
  intro hc
  obtain ⟨a, ha⟩ := hasCycleb_iff.mp hc
  exact Nat.lt_irrefl a (reaches_lt hE ha)

/-- `total_order_from_list` on a duplicate-free list succeeds and stores
exactly the index-order relation set. -/
theorem total_order_from_list_ok {l : List α} (hnd : l.Nodup) :
    ∃ T, total_order_from_list l = .ok T ∧ T.elements = l ∧ T.relations = trel l := by
  have hded : l.dedup = l := List.dedup_eq_self.mpr hnd
  have htc : transitive_closure l.dedup (trel l) = trel l := by
    rw [transitive_closure]
    exact closureLoop_of_transitive (trel_trans hnd) _ _
  have hrc : reflexive_closure l.dedup (trel l) = trel l := by
    rw [hded]
    exact reflexive_closure_of_reflexive (trel_refl hnd)
  have hcls : build_classes (trel l) l.dedup = l.map fun e => [e] := by
    rw [hded]
    exact build_classes_singletons
      (fun a b _ _ h1 h2 => trel_antisymm hnd a b h1 h2) hnd
  have hedges : ∀ uv ∈ class_edges (trel l) (l.map fun e => [e]), uv.1 < uv.2 := by
    rintro ⟨u, v⟩ huv
    obtain ⟨hu, hv, h1, h2⟩ := (mem_class_edges
      (fun a b _ _ ha hb => trel_antisymm hnd a b ha hb) hnd).mp huv
    have hle : u ≤ v := by
      have h3 := (mem_trel_nodup hnd).mp h1
      rw [posIn_getElem hnd hu, posIn_getElem hnd hv] at h3
      exact h3.2.2
    have hne : u ≠ v := by
      rintro rfl
      exact h2 h1
    omega
  have hcyc : hasCycleb (class_edges (trel l) (l.map fun e => [e])) = false :=
    hasCycleb_false_of_increasing hedges
  have hval : validate_partialorder l.dedup (trel l) = none := by
    rw [hded]
    exact validate_partialorder_none_of (trel_refl hnd) (trel_trans hnd)
      (trel_antisymm hnd)
  rw [total_order_from_list, mkPartialOrder, mkPreOrderWith]
  rw [htc, hrc, hcls, transitive_reduction, if_neg (by rw [hcyc]; exact Bool.false_ne_true), hval]
  exact ⟨_, rfl, hded, rfl⟩

theorem mem_betweenF {E : List (Nat × Nat)} {u v w : Nat} :
    w ∈ betweenF E u v ↔
      w ∈ vertsOf E ∧ Reaches E u w ∧ Reaches E w v ∧ w ≠ u ∧ w ≠ v := by
  rw [betweenF, Finset.mem_filter, reachb_iff, reachb_iff]

theorem snd_mem_vertsOf {E : List (Nat × Nat)} {u w : Nat} (h : (u, w) ∈ E) :
    w ∈ vertsOf E := by
  rw [vertsOf, Finset.mem_union]
  exact Or.inr (List.mem_toFinset.mpr (List.mem_map.mpr ⟨(u, w), h, rfl⟩))

theorem mem_reductionOf_of_not {E : List (Nat × Nat)} {u v : Nat}
    (huv : (u, v) ∈ E) (h : (u, v) ∉ reductionOf E) :
    ∃ w, (u, w) ∈ E ∧ w ≠ v ∧ Reaches E w v := by
  rw [reductionOf, List.mem_filter] at h
  push_neg at h
  have h2 := h huv
  have h3 : (E.any fun uw => uw.1 == (u, v).1 && uw.2 != (u, v).2 &&
      reachb E uw.2 (u, v).2) = true := by
    cases hb : (E.any fun uw => uw.1 == (u, v).1 && uw.2 != (u, v).2 &&
        reachb E uw.2 (u, v).2) with
    | true => rfl
    | false => rw [hb] at h2; simp at h2
  rw [List.any_eq_true] at h3
  obtain ⟨uw, hmem, hcond⟩ := h3
  rw [Bool.and_eq_true, Bool.and_eq_true] at hcond
  obtain ⟨⟨h3, h4⟩, h5⟩ := hcond
  refine ⟨uw.2, ?_, ?_, reachb_iff.mp h5⟩
  · have huw1 : uw.1 = u := by simpa using h3
    rw [← huw1]
    exact hmem
  · intro he
    rw [he] at h4
    simp at h4

/-- Every single original edge is realized by a path in the transitive
reduction (on an acyclic graph); strong induction on the number of
vertices strictly between the endpoints. -/
theorem reduction_edge_reach {E : List (Nat × Nat)}
    (hacyc : ∀ a, ¬ Reaches E a a) :
    ∀ n u v, (u, v) ∈ E → (betweenF E u v).card ≤ n →
      Reaches (reductionOf E) u v := by
  intro n
  induction n using Nat.strong_induction_on with
  | _ n ih =>
    intro u v huv hcard
    by_cases hred : (u, v) ∈ reductionOf E
    · exact Relation.TransGen.single hred
    · obtain ⟨w, huw, hwv, hreach⟩ := mem_reductionOf_of_not huv hred
      have hwu : w ≠ u := by
        intro he
        rw [he] at huw
        exact hacyc u (Relation.TransGen.single huw)
      have hw_bet : w ∈ betweenF E u v :=
        mem_betweenF.mpr ⟨snd_mem_vertsOf huw, Relation.TransGen.single huw,
          hreach, hwu, hwv⟩
      -- every edge lying on a path from w to v is realized in the reduction
      have edge_helper : ∀ x y, (x, y) ∈ E →
          Relation.ReflTransGen (EdgeRel E) w x →
          Relation.ReflTransGen (EdgeRel E) y v →
          Reaches (reductionOf E) x y := by
        intro x y hxy hwx hyv
        have hux : Relation.TransGen (EdgeRel E) u x :=
          Relation.TransGen.trans_left (Relation.TransGen.single huw) hwx
        have hsub : betweenF E x y ⊆ betweenF E u v := by
          intro z hz
          obtain ⟨hzV, hxz, hzy, hzx, hzy2⟩ := mem_betweenF.mp hz
          have huz : Reaches E u z := Relation.TransGen.trans hux hxz
          have hzv : Reaches E z v := Relation.TransGen.trans_left hzy hyv
          refine mem_betweenF.mpr ⟨hzV, huz, hzv, ?_, ?_⟩
          · intro he
            rw [he] at hxz
            exact hacyc u (Relation.TransGen.trans hux hxz)
          · intro he
            rw [he] at hzy
            exact hacyc v (Relation.TransGen.trans_left hzy hyv)
        have hwnot : w ∉ betweenF E x y := by
          intro hwb
          obtain ⟨_, hxw, _, hwx2, _⟩ := mem_betweenF.mp hwb
          rcases Relation.reflTransGen_iff_eq_or_transGen.mp hwx with he | hx2
          · exact hwx2 he.symm
          · exact hacyc w (Relation.TransGen.trans hx2 hxw)
        have hss : betweenF E x y ⊂ betweenF E u v :=
          Finset.ssubset_iff_subset_ne.mpr ⟨hsub, fun he => hwnot (he ▸ hw_bet)⟩
        exact ih (betweenF E x y).card
          (Nat.lt_of_lt_of_le (Finset.card_lt_card hss) hcard) x y hxy (le_refl _)
      have hpath_red : ∀ c, Reaches E w c →
          Relation.ReflTransGen (EdgeRel E) c v →
          Reaches (reductionOf E) w c := by
        intro c hc
        induction hc with
        | single hwc =>
          intro hcv
          exact edge_helper w _ hwc Relation.ReflTransGen.refl hcv
        | tail hwb hbc ihh =>
          intro hcv
          have hbv := Relation.ReflTransGen.head hbc hcv
          exact Relation.TransGen.trans (ihh hbv)
            (edge_helper _ _ hbc hwb.to_reflTransGen hcv)
      have hwv_red : Reaches (reductionOf E) w v :=
        hpath_red v hreach Relation.ReflTransGen.refl
      have huw_red : Reaches (reductionOf E) u w := by
        have hsub : betweenF E u w ⊆ betweenF E u v := by
          intro z hz
          obtain ⟨hzV, huz, hzw, hzu, hzw2⟩ := mem_betweenF.mp hz
          refine mem_betweenF.mpr
            ⟨hzV, huz, Relation.TransGen.trans hzw hreach, hzu, ?_⟩
          intro he
          rw [he] at hzw
          exact hacyc w (Relation.TransGen.trans hreach hzw)
        have hwnot : w ∉ betweenF E u w := by
          intro hwb
          exact (mem_betweenF.mp hwb).2.2.2.2 rfl
        have hss : betweenF E u w ⊂ betweenF E u v :=
          Finset.ssubset_iff_subset_ne.mpr ⟨hsub, fun he => hwnot (he ▸ hw_bet)⟩
        exact ih (betweenF E u w).card
          (Nat.lt_of_lt_of_le (Finset.card_lt_card hss) hcard) u w huw (le_refl _)
      exact Relation.TransGen.trans huw_red hwv_red

/-- On an acyclic digraph the transitive reduction preserves strict
reachability. -/
theorem reduction_reach_iff {E : List (Nat × Nat)}
    (hacyc : ∀ a, ¬ Reaches E a a) (u v : Nat) :
    Reaches (reductionOf E) u v ↔ Reaches E u v := by
  constructor
  · intro h
    refine Relation.TransGen.mono ?_ h
    intro a b hab
    exact (List.mem_filter.mp hab).1
  · intro h
    induction h with
    | single h1 => exact reduction_edge_reach hacyc _ _ _ h1 (le_refl _)
    | tail _ h1 ihh =>
      exact Relation.TransGen.trans ihh
        (reduction_edge_reach hacyc _ _ _ h1 (le_refl _))

theorem posIn_append {l1 l2 : List α} {a : α} :
    posIn (l1 ++ l2) a = if a ∈ l1 then posIn l1 a else l1.length + posIn l2 a := by
  induction l1 with
  | nil => simp [posIn]
  | cons x xs ih =>
    rw [List.cons_append, posIn_cons, posIn_cons, ih]
    by_cases hx : x = a
    · simp [hx]
    · rw [if_neg hx, if_neg hx]
      by_cases hm : a ∈ xs
      · rw [if_pos hm, if_pos (List.mem_cons_of_mem _ hm)]
      · rw [if_neg hm, if_neg (by
          intro hc
          rcases List.mem_cons.mp hc with he | hm2
          · exact hx he.symm
          · exact hm hm2)]
        simp only [List.length_cons]
        omega

theorem perm_of_nodup_subset_length {l keys : List α} (hl : l.Nodup)
    (hk : keys.Nodup) (hsub : ∀ x ∈ l, x ∈ keys)
    (hlen : l.length = keys.length) : l.Perm keys := by
  have hts : l.toFinset ⊆ keys.toFinset := by
    intro x hx
    exact List.mem_toFinset.mpr (hsub x (List.mem_toFinset.mp hx))
  have hcard : keys.toFinset.card ≤ l.toFinset.card := by
    rw [List.toFinset_card_of_nodup hl, List.toFinset_card_of_nodup hk]
    omega
  have heq : l.toFinset = keys.toFinset := Finset.eq_of_subset_of_card_le hts hcard
  exact List.perm_of_nodup_nodup_toFinset_eq hl hk heq

theorem cnt_nil_eq_zero_iff {keys : List α} {succs : α → List α} {v : α} :
    cnt keys succs [] v = 0 ↔ ∀ u ∈ keys, v ∉ succs u := by
  rw [cnt, List.length_eq_zero, List.filter_eq_nil]
  constructor
  · intro h u hu hv
    exact h u (List.mem_filter.mpr ⟨hu, by simpa using hv⟩) (by simp)
  · intro h u hu
    rw [predsOf, List.mem_filter] at hu
    exact absurd (by simpa using hu.2) (h u hu.1)

theorem cnt_zero_iff {keys : List α} {succs : α → List α} {ord : List α} {v : α} :
    cnt keys succs ord v = 0 ↔ ∀ u ∈ keys, v ∈ succs u → u ∈ ord := by
  rw [cnt, List.length_eq_zero, List.filter_eq_nil]
  constructor
  · intro h u hu hv
    by_contra hno
    exact h u (List.mem_filter.mpr ⟨hu, by simpa using hv⟩) (by simpa using hno)
  · intro h u hu
    rw [predsOf, List.mem_filter] at hu
    simpa using h u hu.1 (by simpa using hu.2)

theorem cnt_append_of_not_succ {keys : List α} {succs : α → List α}
    {ord : List α} {e v : α} (hv : v ∉ succs e) :
    cnt keys succs (ord ++ [e]) v = cnt keys succs ord v := by
  rw [cnt, cnt]
  congr 1
  apply List.filter_congr
  intro u hu
  rw [predsOf, List.mem_filter] at hu
  have hne : u ≠ e := by
    intro he
    exact hv (he ▸ (by simpa using hu.2))
  simp [hne]

theorem length_filter_ne_of_mem {l : List α} (hnd : l.Nodup) {e : α}
    (he : e ∈ l) :
    (l.filter fun u => decide (u ≠ e)).length = l.length - 1 := by
  induction l with
  | nil => simp at he
  | cons x xs ih =>
    rw [List.filter_cons]
    by_cases hx : x = e
    · subst hx
      have hxs : x ∉ xs := (List.nodup_cons.mp hnd).1
      rw [if_neg (by simp)]
      have hself : xs.filter (fun u => decide (u ≠ x)) = xs :=
        List.filter_eq_self.mpr fun u hu => by
          simp only [decide_eq_true_eq]
          intro he2
          exact hxs (he2 ▸ hu)
      rw [hself]
      simp
    · rw [if_pos (by simp [hx])]
      rcases List.mem_cons.mp he with he2 | he2
      · exact absurd he2.symm hx
      · have hlen := ih (List.Nodup.of_cons hnd) he2
        have hpos : 1 ≤ xs.length := List.length_pos.mpr (List.ne_nil_of_mem he2)
        simp only [List.length_cons, hlen]
        omega

theorem cnt_append_of_succ {keys : List α} (hk : keys.Nodup)
    {succs : α → List α} {ord : List α} {e v : α} (hv : v ∈ succs e)
    (he : e ∈ keys) (hord : e ∉ ord) :
    cnt keys succs (ord ++ [e]) v = cnt keys succs ord v - 1 ∧
      1 ≤ cnt keys succs ord v := by
  have hpred : e ∈ (predsOf keys succs v).filter fun u => decide (u ∉ ord) := by
    rw [List.mem_filter, predsOf, List.mem_filter]
    exact ⟨⟨he, by simpa using hv⟩, by simpa using hord⟩
  have hnd : ((predsOf keys succs v).filter fun u => decide (u ∉ ord)).Nodup :=
    ((List.Nodup.filter _ hk).filter _)
  have hstep : ((predsOf keys succs v).filter fun u => decide (u ∉ ord ++ [e])) =
      ((predsOf keys succs v).filter fun u => decide (u ∉ ord)).filter
        fun u => decide (u ≠ e) := by
    rw [List.filter_filter]
    apply List.filter_congr
    intro u _
    by_cases h1 : u ∈ ord <;> by_cases h2 : u = e <;> simp [h1, h2]
  constructor
  · rw [cnt, cnt, hstep, length_filter_ne_of_mem hnd hpred]
  · rw [cnt]
    exact List.length_pos.mpr fun hnil => by
      rw [hnil] at hpred
      exact absurd hpred (by simp)

theorem lookupA_map_self {β : Type} {keys : List α} (f : α → β) (u : α) :
    lookupA (keys.map fun k => (k, f k)) u =
      if u ∈ keys then some (f u) else none := by
  induction keys with
  | nil => simp [lookupA]
  | cons k ks ih =>
    rw [List.map_cons, lookupA]
    by_cases hk : k = u
    · subst hk
      simp
    · rw [if_neg hk, ih]
      by_cases hm : u ∈ ks
      · rw [if_pos hm, if_pos (List.mem_cons_of_mem _ hm)]
      · rw [if_neg hm, if_neg (by
          intro hc
          rcases List.mem_cons.mp hc with he | hm2
          · exact hk he.symm
          · exact hm hm2)]

theorem updateA_map_self {β : Type} {keys : List α} (hk : keys.Nodup)
    (f : α → β) {u : α} (hu : u ∈ keys) (val : β) :
    updateA (keys.map fun k => (k, f k)) u val =
      keys.map fun k => (k, if k = u then val else f k) := by
  induction keys with
  | nil => simp at hu
  | cons k ks ih =>
    rw [List.map_cons, updateA]
    by_cases hke : k = u
    · subst hke
      rw [if_pos rfl, List.map_cons, if_pos rfl]
      congr 1
      apply List.map_congr_left
      intro x hx
      rw [if_neg]
      intro he
      exact (List.nodup_cons.mp hk).1 (he ▸ hx)
    · rw [if_neg hke, List.map_cons, if_neg hke,
        ih (List.Nodup.of_cons hk) (by
          rcases List.mem_cons.mp hu with he | hm
          · exact absurd he.symm hke
          · exact hm)]

theorem decIndeg_map {keys : List α} (f : α → Nat) (s : α) :
    decIndeg (keys.map fun k => (k, f k)) s =
      keys.map fun k => (k, if k = s then f k - 1 else f k) := by
  rw [decIndeg, List.map_map]
  apply List.map_congr_left
  intro k _
  by_cases hk : k = s <;> simp [hk]

theorem backtrack_fold_go {keys : List α} {succs : α → List α} {ord : List α}
    {e : α} (hS2 : ∀ u v, v ∈ succs u → u ∈ keys ∧ v ∈ keys) :
    ∀ (S D : List α), succs e = D ++ S → (D ++ S).Nodup →
    ∀ base : List α,
      S.foldl (fun st s =>
          let ind2 := decIndeg st.2 s
          (if (lookupA ind2 s).getD 1 == 0 then st.1 ++ [s] else st.1, ind2))
        (base ++ D.filter fun s => decide (cnt keys succs ord s - 1 = 0),
         keys.map fun v =>
           (v, if v ∈ D then cnt keys succs ord v - 1 else cnt keys succs ord v))
      = (base ++ (D ++ S).filter fun s => decide (cnt keys succs ord s - 1 = 0),
         keys.map fun v =>
           (v, if v ∈ D ++ S then cnt keys succs ord v - 1
             else cnt keys succs ord v)) := by
  intro S
  induction S with
  | nil => intro D _ _ base; simp
  | cons s S ih =>
    intro D hsp hnd base
    rw [List.foldl_cons]
    have hsk : s ∈ keys := by
      have : s ∈ succs e := by
        rw [hsp]
        exact List.mem_append_right _ (List.mem_cons_self ..)
      exact (hS2 e s this).2
    have hsD : s ∉ D := by
      intro hc
      rw [List.nodup_append] at hnd
      exact hnd.2.2 hc (List.mem_cons_self ..)
    have hdec : decIndeg (keys.map fun v =>
        (v, if v ∈ D then cnt keys succs ord v - 1 else cnt keys succs ord v)) s =
        keys.map fun v =>
          (v, if v ∈ D ++ [s] then cnt keys succs ord v - 1
            else cnt keys succs ord v) := by
      rw [decIndeg_map]
      apply List.map_congr_left
      intro v _
      by_cases hvs : v = s
      · subst hvs
        rw [if_pos (List.mem_append_right _ (List.mem_cons_self ..)), if_neg hsD,
          if_pos rfl]
      · rw [if_neg hvs]
        by_cases hvD : v ∈ D
        · rw [if_pos hvD, if_pos (List.mem_append_left _ hvD)]
        · rw [if_neg hvD, if_neg (by
            intro hc
            rcases List.mem_append.mp hc with h | h
            · exact hvD h
            · exact hvs (List.mem_singleton.mp h))]
    simp only [hdec]
    have hlook : lookupA (keys.map fun v =>
        (v, if v ∈ D ++ [s] then cnt keys succs ord v - 1
          else cnt keys succs ord v)) s =
        some (cnt keys succs ord s - 1) := by
      rw [lookupA_map_self, if_pos hsk,
        if_pos (List.mem_append_right _ (List.mem_cons_self ..))]
    rw [hlook]
    have hstep : (if ((some (cnt keys succs ord s - 1)).getD 1 == 0) = true
        then (base ++ D.filter fun x => decide (cnt keys succs ord x - 1 = 0)) ++ [s]
        else base ++ D.filter fun x => decide (cnt keys succs ord x - 1 = 0)) =
        base ++ (D ++ [s]).filter fun x => decide (cnt keys succs ord x - 1 = 0) := by
      rw [List.filter_append, Option.getD_some]
      by_cases hz : cnt keys succs ord s - 1 = 0
      · rw [if_pos (by simpa using hz)]
        simp [hz]
      · rw [if_neg (by simpa using hz)]
        simp [hz]
    rw [hstep]
    have := ih (D ++ [s]) (by rw [hsp, List.append_assoc]; rfl)
      (by rw [List.append_assoc]; exact hnd) base
    rw [this, List.append_assoc]
    simp

theorem backtrack_step_inv {keys : List α} (hk : keys.Nodup)
    {succs : α → List α} (hS1 : ∀ u, (succs u).Nodup)
    (hS2 : ∀ u v, v ∈ succs u → u ∈ keys ∧ v ∈ keys)
    (hS3 : ∀ u, u ∉ succs u)
    {ord avail : List α} {ind : List (α × Nat)}
    (hinv : BTInv keys succs ord avail ind) {e : α} (he : e ∈ avail) :
    (succs e).foldl (fun st s =>
        let ind2 := decIndeg st.2 s
        (if (lookupA ind2 s).getD 1 == 0 then st.1 ++ [s] else st.1, ind2))
      (avail.erase e, ind)
      = (avail.erase e ++ (succs e).filter fun s =>
          decide (cnt keys succs ord s - 1 = 0),
         keys.map fun v => (v, cnt keys succs (ord ++ [e]) v)) ∧
    BTInv keys succs (ord ++ [e])
      (avail.erase e ++ (succs e).filter fun s =>
        decide (cnt keys succs ord s - 1 = 0))
      (keys.map fun v => (v, cnt keys succs (ord ++ [e]) v)) := by
  obtain ⟨hond, hok, hresp, havnd, havmem, hind⟩ := hinv
  obtain ⟨hek, heord, hepreds⟩ := (havmem e).mp he
  have hfoldeq : (succs e).foldl (fun st s =>
      let ind2 := decIndeg st.2 s
      (if (lookupA ind2 s).getD 1 == 0 then st.1 ++ [s] else st.1, ind2))
      (avail.erase e, ind)
      = (avail.erase e ++ (succs e).filter fun s =>
          decide (cnt keys succs ord s - 1 = 0),
         keys.map fun v => (v, cnt keys succs (ord ++ [e]) v)) := by
    have hfold := @backtrack_fold_go α _ keys succs ord e hS2 (succs e) [] rfl
      (by simpa using hS1 e) (avail.erase e)
    simp only [List.nil_append] at hfold
    have hinit1 : avail.erase e ++
        List.filter (fun s => decide (cnt keys succs ord s - 1 = 0)) [] =
        avail.erase e := by simp
    have hinit2 : (keys.map fun v =>
        (v, if v ∈ ([] : List α) then cnt keys succs ord v - 1
          else cnt keys succs ord v)) = ind := by
      rw [hind]; simp
    rw [hinit1, hinit2] at hfold
    rw [hfold]
    congr 1
    apply List.map_congr_left
    intro v _
    by_cases hvs : v ∈ succs e
    · rw [if_pos hvs, (cnt_append_of_succ hk hvs hek heord).1]
    · rw [if_neg hvs, cnt_append_of_not_succ hvs]
  refine ⟨hfoldeq, ?_, ?_, ?_, ?_, ?_, rfl⟩
  · rw [List.nodup_append]
    refine ⟨hond, List.nodup_singleton e, ?_⟩
    intro a ha hb
    rw [List.mem_singleton] at hb
    exact heord (hb ▸ ha)
  · intro x hx
    rcases List.mem_append.mp hx with h | h
    · exact hok x h
    · rw [List.mem_singleton] at h
      exact h ▸ hek
  · intro u v hsv hvo
    rcases List.mem_append.mp hvo with hvord | hve
    · obtain ⟨huo, hlt⟩ := hresp u v hsv hvord
      refine ⟨List.mem_append_left _ huo, ?_⟩
      rw [posIn_append, posIn_append, if_pos huo, if_pos hvord]
      exact hlt
    · rw [List.mem_singleton] at hve
      subst hve
      have huo : u ∈ ord := hepreds u hsv
      refine ⟨List.mem_append_left _ huo, ?_⟩
      rw [posIn_append, posIn_append, if_pos huo, if_neg heord, posIn_cons,
        if_pos rfl]
      exact Nat.lt_of_lt_of_le (posIn_lt_length huo) (Nat.le_add_right _ _)
  · rw [List.nodup_append]
    refine ⟨havnd.erase e, (hS1 e).filter _, ?_⟩
    intro a ha hb
    rw [List.mem_filter] at hb
    have hapred := ((havmem a).mp (List.mem_of_mem_erase ha)).2.2
    exact heord (hapred e hb.1)
  · intro x
    constructor
    · intro hx
      rcases List.mem_append.mp hx with h | h
      · obtain ⟨hxe, hxa⟩ := havnd.mem_erase_iff.mp h
        obtain ⟨hxk, hxno, hxp⟩ := (havmem x).mp hxa
        refine ⟨hxk, ?_, ?_⟩
        · intro hc
          rcases List.mem_append.mp hc with hc | hc
          · exact hxno hc
          · exact hxe (List.mem_singleton.mp hc)
        · intro u hu
          exact List.mem_append_left _ (hxp u hu)
      · rw [List.mem_filter] at h
        obtain ⟨hxs, hxc⟩ := h
        have hxc := of_decide_eq_true hxc
        have hxk : x ∈ keys := (hS2 e x hxs).2
        have hxne : x ≠ e := by
          intro hc
          exact hS3 e (hc ▸ hxs)
        have hxnord : x ∉ ord := by
          intro hc
          exact heord (hresp e x hxs hc).1
        refine ⟨hxk, ?_, ?_⟩
        · intro hc
          rcases List.mem_append.mp hc with hc | hc
          · exact hxnord hc
          · exact hxne (List.mem_singleton.mp hc)
        · intro u hu
          have hz : cnt keys succs (ord ++ [e]) x = 0 := by
            rw [(cnt_append_of_succ hk hxs hek heord).1]
            exact hxc
          exact cnt_zero_iff.mp hz u (hS2 u x hu).1 hu
    · intro ⟨hxk, hxno, hxp⟩
      have hxne : x ≠ e := by
        intro hc
        exact hxno (hc ▸ List.mem_append_right _ (List.mem_singleton.mpr rfl))
      have hxnord : x ∉ ord := fun hc => hxno (List.mem_append_left _ hc)
      have hz : cnt keys succs (ord ++ [e]) x = 0 :=
        cnt_zero_iff.mpr fun u hu hs => hxp u hs
      by_cases hxs : x ∈ succs e
      · refine List.mem_append_right _ (List.mem_filter.mpr ⟨hxs, ?_⟩)
        rw [(cnt_append_of_succ hk hxs hek heord).1] at hz
        exact decide_eq_true hz
      · rw [cnt_append_of_not_succ hxs] at hz
        have hxp0 : ∀ u, x ∈ succs u → u ∈ ord := fun u hu =>
          cnt_zero_iff.mp hz u (hS2 u x hu).1 hu
        refine List.mem_append_left _
          (havnd.mem_erase_iff.mpr ⟨hxne, (havmem x).mpr ⟨hxk, hxnord, hxp0⟩⟩)

theorem length_le_of_nodup_subset {l keys : List α} (hl : l.Nodup)
    (hsub : ∀ x ∈ l, x ∈ keys) : l.length ≤ keys.length := by
  have h1 : l.toFinset.card = l.length := List.toFinset_card_of_nodup hl
  have h2 : l.toFinset ⊆ keys.toFinset := fun x hx =>
    List.mem_toFinset.mpr (hsub x (List.mem_toFinset.mp hx))
  have h3 := Finset.card_le_card h2
  have h4 := keys.toFinset_card_le
  omega

theorem foldlE_append_ok {ε β : Type} {g : α → Except ε (List β)}
    {F : α → List β} :
    ∀ l : List α, (∀ e ∈ l, g e = .ok (F e)) →
    ∀ acc : List β,
      foldlE (fun acc e => Except.map (fun x => acc ++ x) (g e)) acc l
        = .ok (acc ++ l.flatMap F) := by
  intro l
  induction l with
  | nil => intro _ acc; simp [foldlE]
  | cons x xs ih =>
    intro h acc
    rw [foldlE, h x (List.mem_cons_self ..)]
    show foldlE (fun acc e => Except.map (fun x => acc ++ x) (g e))
      (acc ++ F x) xs = _
    rw [ih (fun e he => h e (List.mem_cons_of_mem _ he)) (acc ++ F x),
      List.flatMap_cons, List.append_assoc]

theorem mapE_append_ok {ε β γ : Type} {f : β → Except ε γ} :
    ∀ {l1 : List β} {r1 : List γ}, mapE f l1 = .ok r1 →
    ∀ {l2 : List β} {r2 : List γ}, mapE f l2 = .ok r2 →
    mapE f (l1 ++ l2) = .ok (r1 ++ r2) := by
  intro l1
  induction l1 with
  | nil =>
    intro r1 h1 l2 r2 h2
    rw [mapE] at h1
    cases h1
    simpa using h2
  | cons x xs ih =>
    intro r1 h1 l2 r2 h2
    rw [mapE] at h1
    rw [List.cons_append, mapE]
    cases hfx : f x with
    | error e => rw [hfx] at h1; exact absurd h1 (by simp)
    | ok y =>
      rw [hfx] at h1
      cases hxs : mapE f xs with
      | error e => rw [hxs] at h1; exact absurd h1 (by simp)
      | ok ys =>
        rw [hxs] at h1
        have h1 : y :: ys = r1 := by
          simpa using h1
        rw [ih hxs h2]
        rw [← h1]
        rfl

theorem mapE_flatMap_ok {ε β γ : Type} {f : β → Except ε γ} {h : α → List β}
    {g : α → List γ} :
    ∀ l : List α, (∀ e ∈ l, mapE f (h e) = .ok (g e)) →
    mapE f (l.flatMap h) = .ok (l.flatMap g) := by
  intro l
  induction l with
  | nil => intro _; rfl
  | cons x xs ih =>
    intro hl
    rw [List.flatMap_cons, List.flatMap_cons]
    exact mapE_append_ok (hl x (List.mem_cons_self ..))
      (ih fun e he => hl e (List.mem_cons_of_mem _ he))

theorem nodup_flatMap_of {β : Type} {l : List α} {f : α → List β}
    (hl : l.Nodup) (hf : ∀ e ∈ l, (f e).Nodup)
    (hdisj : ∀ e1 ∈ l, ∀ e2 ∈ l, e1 ≠ e2 → ∀ x ∈ f e1, x ∉ f e2) :
    (l.flatMap f).Nodup := by
  induction l with
  | nil => simp
  | cons x xs ih =>
    rw [List.flatMap_cons, List.nodup_append]
    refine ⟨hf x (List.mem_cons_self ..),
      ih (List.Nodup.of_cons hl)
        (fun e he => hf e (List.mem_cons_of_mem _ he))
        (fun e1 h1 e2 h2 hne =>
          hdisj e1 (List.mem_cons_of_mem _ h1) e2 (List.mem_cons_of_mem _ h2)
            hne), ?_⟩
    intro a ha hb
    rw [List.mem_flatMap] at hb
    obtain ⟨e, he, hae⟩ := hb
    have hxe : x ≠ e := by
      intro hc
      exact (List.nodup_cons.mp hl).1 (hc ▸ he)
    exact hdisj x (List.mem_cons_self ..) e (List.mem_cons_of_mem _ he) hxe
      a ha hae

theorem getElem_append_mid {l r : List α} (e : α) :
    ((l ++ [e]) ++ r)[l.length]? = some e := by
  rw [List.append_assoc, List.getElem?_append_right (Nat.le_refl _)]
  simp

theorem mem_succs_iff {E : List (α × α)} {u v : α} :
    v ∈ (E.filter fun uv => decide (uv.1 = u)).map Prod.snd ↔ (u, v) ∈ E := by
  rw [List.mem_map]
  constructor
  · rintro ⟨uv, huv, he⟩
    rw [List.mem_filter] at huv
    have h1 : uv.1 = u := of_decide_eq_true huv.2
    have : uv = (u, v) := by
      rw [Prod.ext_iff]
      exact ⟨h1, he⟩
    exact this ▸ huv.1
  · intro h
    exact ⟨(u, v), List.mem_filter.mpr ⟨h, by simp⟩, rfl⟩

theorem combinations2_nodup {β : Type} [DecidableEq β] {l : List β}
    (h : l.Nodup) : (combinations2 l).Nodup := by
  induction l with
  | nil => simp [combinations2]
  | cons x xs ih =>
    rw [combinations2, List.nodup_append]
    refine ⟨?_, ih (List.Nodup.of_cons h), ?_⟩
    · exact (List.Nodup.of_cons h).map fun a b he => by
        simpa using congrArg Prod.snd he
    · intro p hp hq
      rw [List.mem_map] at hp
      obtain ⟨y, _, he⟩ := hp
      have hfst : p.1 = x := by rw [← he]
      have := (mem_combinations2 (a := p.1) (b := p.2) (by simpa using hq)).1
      rw [hfst] at this
      exact (List.nodup_cons.mp h).1 this

theorem nodup_filterMap_on {β γ : Type} {l : List β} {f : β → Option γ}
    (hl : l.Nodup)
    (hinj : ∀ a1 ∈ l, ∀ a2 ∈ l, ∀ b, f a1 = some b → f a2 = some b → a1 = a2) :
    (l.filterMap f).Nodup := by
  induction l with
  | nil => simp
  | cons x xs ih =>
    rw [List.filterMap_cons]
    cases hfx : f x with
    | none =>
      exact ih (List.Nodup.of_cons hl) fun a1 h1 a2 h2 b hb1 hb2 =>
        hinj a1 (List.mem_cons_of_mem _ h1) a2 (List.mem_cons_of_mem _ h2) b
          hb1 hb2
    | some y =>
      rw [List.nodup_cons]
      refine ⟨?_, ih (List.Nodup.of_cons hl) fun a1 h1 a2 h2 b hb1 hb2 =>
        hinj a1 (List.mem_cons_of_mem _ h1) a2 (List.mem_cons_of_mem _ h2) b
          hb1 hb2⟩
      intro hc
      rw [List.mem_filterMap] at hc
      obtain ⟨a, ha, hay⟩ := hc
      have : a = x := hinj a (List.mem_cons_of_mem _ ha) x
        (List.mem_cons_self ..) y hay hfx
      exact (List.nodup_cons.mp hl).1 (this ▸ ha)

theorem mapE_forall2 {ε β γ : Type} {f : β → Except ε γ} :
    ∀ {l : List β} {r : List γ}, mapE f l = .ok r →
    List.Forall₂ (fun x y => f x = .ok y) l r := by
  intro l
  induction l with
  | nil =>
    intro r h
    rw [mapE] at h
    cases h
    exact List.Forall₂.nil
  | cons x xs ih =>
    intro r h
    rw [mapE] at h
    cases hfx : f x with
    | error e => rw [hfx] at h; exact absurd h (by simp)
    | ok y =>
      rw [hfx] at h
      cases hxs : mapE f xs with
      | error e => rw [hxs] at h; exact absurd h (by simp)
      | ok ys =>
        rw [hxs] at h
        have : y :: ys = r := by simpa using h
        rw [← this]
        exact List.Forall₂.cons hfx (ih hxs)

theorem forall2_mem_right {β γ : Type} {R : β → γ → Prop} :
    ∀ {l : List β} {r : List γ}, List.Forall₂ R l r → ∀ y ∈ r,
      ∃ x ∈ l, R x y := by
  intro l r h
  induction h with
  | nil => intro y hy; simp at hy
  | cons hxy _ ih =>
    intro y hy
    rcases List.mem_cons.mp hy with he | hm
    · exact ⟨_, List.mem_cons_self .., he ▸ hxy⟩
    · obtain ⟨x, hx, hr⟩ := ih y hm
      exact ⟨x, List.mem_cons_of_mem _ hx, hr⟩

theorem pairwise_of_forall2 {β γ : Type} {R : β → γ → Prop} {P : β → β → Prop}
    {Q : γ → γ → Prop}
    (h : ∀ x1 y1 x2 y2, R x1 y1 → R x2 y2 → P x1 x2 → Q y1 y2) :
    ∀ {l : List β} {r : List γ}, List.Forall₂ R l r → l.Pairwise P →
      r.Pairwise Q := by
  intro l r hf
  induction hf with
  | nil => intro _; exact List.Pairwise.nil
  | cons hxy htail ih =>
    intro hp
    obtain ⟨hx, hxs⟩ := List.pairwise_cons.mp hp
    refine List.Pairwise.cons ?_ (ih hxs)
    intro z hz
    obtain ⟨x2, hx2, hr2⟩ := forall2_mem_right htail z hz
    exact h _ _ _ _ hxy hr2 (hx x2 hx2)

theorem eq_singleton_of_unique {l : List α} {a : α} (hnd : l.Nodup)
    (ha : a ∈ l) (huniq : ∀ x ∈ l, x = a) : l = [a] := by
  cases l with
  | nil => simp at ha
  | cons x xs =>
    have hx : x = a := huniq x (List.mem_cons_self ..)
    subst hx
    have hxs : xs = [] := by
      rw [List.eq_nil_iff_forall_not_mem]
      intro y hy
      have : y = x := huniq y (List.mem_cons_of_mem _ hy)
      exact (List.nodup_cons.mp hnd).1 (this ▸ hy)
    rw [hxs]

theorem eq_of_nodup_of_order_iff :
    ∀ {l1 l2 : List α}, l1.Nodup → l2.Nodup → (∀ a, a ∈ l1 ↔ a ∈ l2) →
    (∀ a b, a ∈ l1 → b ∈ l1 →
      (posIn l1 a ≤ posIn l1 b ↔ posIn l2 a ≤ posIn l2 b)) →
    l1 = l2 := by
  intro l1
  induction l1 with
  | nil =>
    intro l2 _ _ hmem _
    rcases l2 with _ | ⟨y, ys⟩
    · rfl
    · exact absurd ((hmem y).mpr (List.mem_cons_self ..)) (by simp)
  | cons x xs ih =>
    intro l2 h1 h2 hmem hord
    rcases l2 with _ | ⟨y, ys⟩
    · exact absurd ((hmem x).mp (List.mem_cons_self ..)) (by simp)
    · have hyx : x = y := by
        have hy1 : y ∈ x :: xs := (hmem y).mpr (List.mem_cons_self ..)
        have hx2 : x ∈ y :: ys := (hmem x).mp (List.mem_cons_self ..)
        have hle : posIn (x :: xs) x ≤ posIn (x :: xs) y := by
          rw [posIn_cons, if_pos rfl]
          exact Nat.zero_le _
        have := (hord x y (List.mem_cons_self ..) hy1).mp hle
        have hpy : posIn (y :: ys) y = 0 := by rw [posIn_cons, if_pos rfl]
        rw [hpy] at this
        have hp0 : posIn (y :: ys) x = 0 := Nat.le_zero.mp this
        rw [← hpy] at hp0
        exact posIn_inj hx2 (List.mem_cons_self ..) hp0
      subst hyx
      congr 1
      refine ih (List.Nodup.of_cons h1) (List.Nodup.of_cons h2) ?_ ?_
      · intro a
        constructor
        · intro ha
          have hax : a ≠ x := by
            intro hc
            exact (List.nodup_cons.mp h1).1 (hc ▸ ha)
          rcases List.mem_cons.mp ((hmem a).mp (List.mem_cons_of_mem _ ha))
            with he | hm
          · exact absurd he hax
          · exact hm
        · intro ha
          have hax : a ≠ x := by
            intro hc
            exact (List.nodup_cons.mp h2).1 (hc ▸ ha)
          rcases List.mem_cons.mp ((hmem a).mpr (List.mem_cons_of_mem _ ha))
            with he | hm
          · exact absurd he hax
          · exact hm
      · intro a b ha hb
        have hax : a ≠ x := fun hc => (List.nodup_cons.mp h1).1 (hc ▸ ha)
        have hbx : b ≠ x := fun hc => (List.nodup_cons.mp h1).1 (hc ▸ hb)
        have h3 := hord a b (List.mem_cons_of_mem _ ha)
          (List.mem_cons_of_mem _ hb)
        rw [posIn_cons, posIn_cons, posIn_cons, posIn_cons,
          if_neg (fun hc => hax hc.symm), if_neg (fun hc => hbx hc.symm),
          if_neg (fun hc => hax hc.symm), if_neg (fun hc => hbx hc.symm)]
          at h3
        constructor
        · intro hle
          have := h3.mp (by omega)
          omega
        · intro hle
          have := h3.mpr (by omega)
          omega

theorem exists_min_of_total {r : Finset (α × α)} :
    ∀ {l : List α}, l ≠ [] →
    (∀ a ∈ l, ∀ b ∈ l, (a, b) ∈ r ∨ (b, a) ∈ r) →
    (∀ a ∈ l, ∀ b ∈ l, ∀ c ∈ l, (a, b) ∈ r → (b, c) ∈ r → (a, c) ∈ r) →
    ∃ m ∈ l, ∀ b ∈ l, (m, b) ∈ r := by
  intro l
  induction l with
  | nil => intro h; exact absurd rfl h
  | cons x xs ih =>
    intro _ htot htrans
    have hxx : (x, x) ∈ r := by
      rcases htot x (List.mem_cons_self ..) x (List.mem_cons_self ..) with
        h | h <;> exact h
    rcases xs with _ | ⟨z, zs⟩
    · refine ⟨x, List.mem_cons_self .., ?_⟩
      intro b hb
      rcases List.mem_cons.mp hb with he | hm
      · exact he ▸ hxx
      · simp at hm
    · obtain ⟨m, hm, hmin⟩ := ih (by simp)
        (fun a ha b hb => htot a (List.mem_cons_of_mem _ ha) b
          (List.mem_cons_of_mem _ hb))
        (fun a ha b hb c hc => htrans a (List.mem_cons_of_mem _ ha) b
          (List.mem_cons_of_mem _ hb) c (List.mem_cons_of_mem _ hc))
      by_cases hxm : (x, m) ∈ r
      · refine ⟨x, List.mem_cons_self .., ?_⟩
        intro b hb
        rcases List.mem_cons.mp hb with he | hbm
        · exact he ▸ hxx
        · exact htrans x (List.mem_cons_self ..) m
            (List.mem_cons_of_mem _ hm) b (List.mem_cons_of_mem _ hbm) hxm
            (hmin b hbm)
      · have hmx : (m, x) ∈ r := by
          rcases htot x (List.mem_cons_self ..) m (List.mem_cons_of_mem _ hm)
            with h | h
          · exact absurd h hxm
          · exact h
        refine ⟨m, List.mem_cons_of_mem _ hm, ?_⟩
        intro b hb
        rcases List.mem_cons.mp hb with he | hbm
        · exact he ▸ hmx
        · exact hmin b hbm

theorem exists_linear_ext {r : Finset (α × α)} :
    ∀ (n : Nat) (l : List α), l.length = n → l.Nodup →
    (∀ a ∈ l, ∀ b ∈ l, (a, b) ∈ r ∨ (b, a) ∈ r) →
    (∀ a ∈ l, ∀ b ∈ l, ∀ c ∈ l, (a, b) ∈ r → (b, c) ∈ r → (a, c) ∈ r) →
    (∀ a ∈ l, ∀ b ∈ l, (a, b) ∈ r → (b, a) ∈ r → a = b) →
    ∃ ℓ : List α, ℓ.Perm l ∧
      ∀ a b, a ∈ l → b ∈ l → (a, b) ∈ r → posIn ℓ a ≤ posIn ℓ b := by
  intro n
  induction n with
  | zero =>
    intro l hlen _ _ _ _
    rw [List.length_eq_zero] at hlen
    exact ⟨[], by rw [hlen], fun a b ha _ _ => by rw [hlen] at ha; simp at ha⟩
  | succ n ih =>
    intro l hlen hnd htot htrans hanti
    have hne : l ≠ [] := by
      intro hc
      rw [hc] at hlen
      simp at hlen
    obtain ⟨m, hm, hmin⟩ := exists_min_of_total hne htot htrans
    have herase : ∀ x, x ∈ l.erase m ↔ x ≠ m ∧ x ∈ l := fun x =>
      hnd.mem_erase_iff
    have hlen2 : (l.erase m).length = n := by
      rw [List.length_erase_of_mem hm, hlen]
      rfl
    obtain ⟨ℓ2, hperm2, hsort2⟩ := ih (l.erase m) hlen2 (hnd.erase m)
      (fun a ha b hb => htot a ((herase a).mp ha).2 b ((herase b).mp hb).2)
      (fun a ha b hb c hc => htrans a ((herase a).mp ha).2 b
        ((herase b).mp hb).2 c ((herase c).mp hc).2)
      (fun a ha b hb => hanti a ((herase a).mp ha).2 b ((herase b).mp hb).2)
    refine ⟨m :: ℓ2, ?_, ?_⟩
    · exact (List.Perm.cons m hperm2).trans (List.perm_cons_erase hm).symm
    · intro a b ha hb hab
      by_cases ham : a = m
      · rw [ham, posIn_cons, if_pos rfl]
        exact Nat.zero_le _
      · have hbm : b ≠ m := by
          intro hc
          have hma : (b, a) ∈ r := by rw [hc]; exact hmin a ha
          exact ham (by rw [hanti a ha b hb hab hma, hc])
        rw [posIn_cons, posIn_cons, if_neg (fun hc => ham hc.symm),
          if_neg (fun hc => hbm hc.symm)]
        have := hsort2 a b ((herase a).mpr ⟨ham, ha⟩)
          ((herase b).mpr ⟨hbm, hb⟩) hab
        omega

theorem buildAdj_go {keys : List α} (hk : keys.Nodup) {E : List (α × α)}
    (hend : ∀ uv ∈ E, uv.1 ∈ keys ∧ uv.2 ∈ keys) (hnd : E.Nodup) :
    ∀ (S D : List (α × α)), E = D ++ S →
    foldlE adjIndegStep
      (keys.map fun k =>
        (k, (D.filter fun uv => decide (uv.1 = k)).map Prod.snd),
       keys.map fun k => (k, (D.filter fun uv => decide (uv.2 = k)).length)) S
      = .ok (keys.map fun k =>
          (k, (E.filter fun uv => decide (uv.1 = k)).map Prod.snd),
         keys.map fun k =>
          (k, (E.filter fun uv => decide (uv.2 = k)).length)) := by
  intro S
  induction S with
  | nil =>
    intro D hE
    rw [foldlE, hE, List.append_nil]
  | cons uv S ih =>
    intro D hE
    rw [foldlE]
    have huv : uv ∈ E := by
      rw [hE]
      exact List.mem_append_right _ (List.mem_cons_self ..)
    have h1 : uv.1 ∈ keys := (hend uv huv).1
    have h2 : uv.2 ∈ keys := (hend uv huv).2
    have hnotD : uv ∉ D := by
      rw [hE, List.nodup_append] at hnd
      intro hc
      exact hnd.2.2 hc (List.mem_cons_self ..)
    have hnotmem : uv.2 ∉ (D.filter fun x => decide (x.1 = uv.1)).map
        Prod.snd := by
      intro hc
      have : (uv.1, uv.2) ∈ D := mem_succs_iff.mp hc
      rw [Prod.mk.eta] at this
      exact hnotD this
    have hadj : updateA
        (keys.map fun k => (k, (D.filter fun x => decide (x.1 = k)).map
          Prod.snd)) uv.1
        ((D.filter fun x => decide (x.1 = uv.1)).map Prod.snd ++ [uv.2]) =
        keys.map fun k =>
          (k, ((D ++ [uv]).filter fun x => decide (x.1 = k)).map Prod.snd) := by
      rw [updateA_map_self hk _ h1]
      apply List.map_congr_left
      intro k _
      by_cases hke : k = uv.1
      · rw [if_pos hke, List.filter_append]
        subst hke
        simp
      · rw [if_neg hke, List.filter_append]
        have hne2 : ¬ (uv.1 = k) := fun hc => hke hc.symm
        simp [List.filter, hne2]
    have hind2 : updateA
        (keys.map fun k => (k, (D.filter fun x => decide (x.2 = k)).length))
        uv.2 ((D.filter fun x => decide (x.2 = uv.2)).length + 1) =
        keys.map fun k =>
          (k, ((D ++ [uv]).filter fun x => decide (x.2 = k)).length) := by
      rw [updateA_map_self hk _ h2]
      apply List.map_congr_left
      intro k _
      by_cases hke : k = uv.2
      · rw [if_pos hke, List.filter_append]
        subst hke
        simp
      · rw [if_neg hke, List.filter_append]
        have hne2 : ¬ (uv.2 = k) := fun hc => hke hc.symm
        simp [List.filter, hne2]
    have hstep : adjIndegStep
        (keys.map fun k =>
          (k, (D.filter fun x => decide (x.1 = k)).map Prod.snd),
         keys.map fun k => (k, (D.filter fun x => decide (x.2 = k)).length)) uv
        = .ok (keys.map fun k =>
            (k, ((D ++ [uv]).filter fun x => decide (x.1 = k)).map Prod.snd),
           keys.map fun k =>
            (k, ((D ++ [uv]).filter fun x => decide (x.2 = k)).length)) := by
      rw [adjIndegStep]
      dsimp only
      rw [lookupA_map_self, if_pos h1]
      dsimp only
      rw [if_neg hnotmem, lookupA_map_self, if_pos h2]
      dsimp only
      rw [hadj, hind2]
    rw [hstep]
    exact ih (D ++ [uv]) (by rw [hE, List.append_assoc]; rfl)

theorem buildAdj_spec {keys : List α} (hk : keys.Nodup) {E : List (α × α)}
    (hend : ∀ uv ∈ E, uv.1 ∈ keys ∧ uv.2 ∈ keys) (hnd : E.Nodup) :
    foldlE adjIndegStep
      (keys.map fun e => (e, ([] : List α)), keys.map fun e => (e, 0)) E
      = .ok (keys.map fun k =>
          (k, (E.filter fun uv => decide (uv.1 = k)).map Prod.snd),
         keys.map fun k =>
          (k, (E.filter fun uv => decide (uv.2 = k)).length)) := by
  have := buildAdj_go hk hend hnd E [] rfl
  simpa using this

theorem indeg_eq_cnt_nil {keys : List α} (hk : keys.Nodup) {E : List (α × α)}
    (hend : ∀ uv ∈ E, uv.1 ∈ keys ∧ uv.2 ∈ keys) (hnd : E.Nodup) (k : α) :
    (E.filter fun uv => decide (uv.2 = k)).length =
      cnt keys (fun u => (E.filter fun uv => decide (uv.1 = u)).map Prod.snd)
        [] k := by
  rw [cnt]
  have hfe : ((predsOf keys
      (fun u => (E.filter fun uv => decide (uv.1 = u)).map Prod.snd) k).filter
        fun u => decide (u ∉ ([] : List α))) = predsOf keys
      (fun u => (E.filter fun uv => decide (uv.1 = u)).map Prod.snd) k := by
    apply List.filter_eq_self.mpr
    intro u _
    simp
  rw [hfe, predsOf]
  have hc : (keys.filter fun u =>
      decide (k ∈ (E.filter fun uv => decide (uv.1 = u)).map Prod.snd)) =
      keys.filter fun u => decide ((u, k) ∈ E) := by
    apply List.filter_congr
    intro u _
    simp only [decide_eq_decide]
    exact mem_succs_iff
  rw [hc]
  have hperm : ((E.filter fun uv => decide (uv.2 = k)).map Prod.fst).Perm
      (keys.filter fun u => decide ((u, k) ∈ E)) := by
    rw [List.perm_ext_iff_of_nodup]
    · intro u
      rw [List.mem_map, List.mem_filter]
      constructor
      · rintro ⟨uv, huv, he⟩
        rw [List.mem_filter] at huv
        have hsnd : uv.2 = k := of_decide_eq_true huv.2
        have huvk : uv = (u, k) := by
          rw [Prod.ext_iff]
          exact ⟨he, hsnd⟩
        constructor
        · rw [← he]
          exact (hend uv huv.1).1
        · rw [← huvk]
          exact decide_eq_true huv.1
      · rintro ⟨hu, he⟩
        have huk : (u, k) ∈ E := of_decide_eq_true he
        exact ⟨(u, k), List.mem_filter.mpr ⟨huk, by simp⟩, rfl⟩
    · refine List.Nodup.map_on ?_ (hnd.filter _)
      intro a ha b hb he
      rw [List.mem_filter] at ha hb
      have ha2 : a.2 = k := of_decide_eq_true ha.2
      have hb2 : b.2 = k := of_decide_eq_true hb.2
      rw [Prod.ext_iff]
      exact ⟨he, ha2.trans hb2.symm⟩
    · exact hk.filter _
  have := hperm.length_eq
  rw [List.length_map] at this
  exact this

theorem class_edges_filterMap (r : Finset (α × α)) (classes : List (List α)) :
    class_edges r classes =
      (combinations2 (List.range classes.length)).filterMap fun ij =>
        match (classes.getD ij.1 []).head?, (classes.getD ij.2 []).head? with
        | some ra, some rb =>
          if (ra, rb) ∈ r ∧ (rb, ra) ∉ r then some ij
          else if (rb, ra) ∈ r ∧ (ra, rb) ∉ r then some (ij.2, ij.1)
          else none
        | _, _ => none := by
  rw [class_edges]
  have hfold : ∀ (combos : List (Nat × Nat)) (acc : List (Nat × Nat)),
      combos.foldl
        (fun es ij =>
          match (classes.getD ij.1 []).head?, (classes.getD ij.2 []).head? with
          | some ra, some rb =>
            if (ra, rb) ∈ r ∧ (rb, ra) ∉ r then es ++ [ij]
            else if (rb, ra) ∈ r ∧ (ra, rb) ∉ r then es ++ [(ij.2, ij.1)]
            else es
          | _, _ => es) acc
        = acc ++ combos.filterMap fun ij =>
            match (classes.getD ij.1 []).head?,
                (classes.getD ij.2 []).head? with
            | some ra, some rb =>
              if (ra, rb) ∈ r ∧ (rb, ra) ∉ r then some ij
              else if (rb, ra) ∈ r ∧ (ra, rb) ∉ r then some (ij.2, ij.1)
              else none
            | _, _ => none := by
    intro combos
    induction combos with
    | nil => intro acc; simp
    | cons ij ijs ih =>
      intro acc
      rw [List.foldl_cons, List.filterMap_cons]
      cases hh1 : (classes.getD ij.1 []).head? with
      | none =>
        simp only [hh1]
        rw [ih]
      | some ra =>
        cases hh2 : (classes.getD ij.2 []).head? with
        | none =>
          simp only [hh1, hh2]
          rw [ih]
        | some rb =>
          simp only [hh1, hh2]
          by_cases hc1 : (ra, rb) ∈ r ∧ (rb, ra) ∉ r
          · rw [if_pos hc1, if_pos hc1, ih]
            simp
          · rw [if_neg hc1, if_neg hc1]
            by_cases hc2 : (rb, ra) ∈ r ∧ (ra, rb) ∉ r
            · rw [if_pos hc2, if_pos hc2, ih]
              simp
            · rw [if_neg hc2, if_neg hc2, ih]
  simpa using hfold (combinations2 (List.range classes.length)) []

theorem class_edges_option_cases {r : Finset (α × α)} {classes : List (List α)}
    {ij b : Nat × Nat}
    (h : (match (classes.getD ij.1 []).head?, (classes.getD ij.2 []).head? with
      | some ra, some rb =>
        if (ra, rb) ∈ r ∧ (rb, ra) ∉ r then some ij
        else if (rb, ra) ∈ r ∧ (ra, rb) ∉ r then some (ij.2, ij.1)
        else none
      | _, _ => none) = some b) : b = ij ∨ b = (ij.2, ij.1) := by
  cases hh1 : (classes.getD ij.1 []).head? with
  | none =>
    rw [hh1] at h
    simp at h
  | some ra =>
    cases hh2 : (classes.getD ij.2 []).head? with
    | none =>
      rw [hh1, hh2] at h
      simp at h
    | some rb =>
      rw [hh1, hh2] at h
      dsimp only at h
      by_cases hc1 : (ra, rb) ∈ r ∧ (rb, ra) ∉ r
      · rw [if_pos hc1] at h
        exact Or.inl (Option.some_injective _ h).symm
      · rw [if_neg hc1] at h
        by_cases hc2 : (rb, ra) ∈ r ∧ (ra, rb) ∉ r
        · rw [if_pos hc2] at h
          exact Or.inr (Option.some_injective _ h).symm
        · rw [if_neg hc2] at h
          simp at h

theorem class_edges_nodup {r : Finset (α × α)} {classes : List (List α)} :
    (class_edges r classes).Nodup := by
  rw [class_edges_filterMap]
  refine nodup_filterMap_on (combinations2_nodup (List.nodup_range _)) ?_
  intro a1 h1 a2 h2 b hb1 hb2
  have h1p : (a1.1, a1.2) ∈ combinations2 (List.range classes.length) := by
    rw [Prod.mk.eta]
    exact h1
  have h2p : (a2.1, a2.2) ∈ combinations2 (List.range classes.length) := by
    rw [Prod.mk.eta]
    exact h2
  have hr1 := mem_combinations2_range.mp h1p
  have hr2 := mem_combinations2_range.mp h2p
  rcases class_edges_option_cases hb1 with hc1 | hc1 <;>
    rcases class_edges_option_cases hb2 with hc2 | hc2
  · rw [← hc1, ← hc2]
  · exfalso
    rw [hc1] at hc2
    obtain ⟨he1, he2⟩ := Prod.ext_iff.mp hc2
    dsimp at he1 he2
    omega
  · exfalso
    rw [hc2] at hc1
    obtain ⟨he1, he2⟩ := Prod.ext_iff.mp hc1
    dsimp at he1 he2
    omega
  · rw [hc1] at hc2
    obtain ⟨he1, he2⟩ := Prod.ext_iff.mp hc2
    dsimp at he1 he2
    rw [Prod.ext_iff]
    exact ⟨he2, he1⟩

theorem singleton_classes_getD {elements : List α} {i : Nat}
    (hi : i < elements.length) :
    (elements.map fun e => [e]).getD i [] = [elements[i]] := by
  rw [List.getD_eq_getElem _ _ (by simpa using hi)]
  simp

theorem singleton_classes_nodes {elements : List α} :
    (elements.map fun e => [e]).filterMap List.head? = elements := by
  induction elements with
  | nil => rfl
  | cons x xs ih =>
    rw [List.map_cons, List.filterMap_cons]
    simp only [List.head?]
    rw [ih]

theorem edges_mem {elements : List α} {H : List (Nat × Nat)}
    (hb : ∀ ij ∈ H, ij.1 < elements.length ∧ ij.2 < elements.length)
    {u v : α} :
    (u, v) ∈ H.filterMap (fun ij =>
      match ((elements.map fun e => [e]).getD ij.1 []).head?,
          ((elements.map fun e => [e]).getD ij.2 []).head? with
      | some a, some b => some (a, b)
      | _, _ => none) ↔
    ∃ i j, (i, j) ∈ H ∧ ∃ hi : i < elements.length,
      ∃ hj : j < elements.length, u = elements[i] ∧ v = elements[j] := by
  rw [List.mem_filterMap]
  constructor
  · rintro ⟨ij, hij, hmatch⟩
    obtain ⟨hi, hj⟩ := hb ij hij
    rw [singleton_classes_getD hi, singleton_classes_getD hj] at hmatch
    simp only [List.head?] at hmatch
    have := Option.some_injective _ hmatch
    obtain ⟨he1, he2⟩ := Prod.ext_iff.mp this
    refine ⟨ij.1, ij.2, by rw [Prod.mk.eta]; exact hij, hi, hj, ?_, ?_⟩
    · exact he1.symm
    · exact he2.symm
  · rintro ⟨i, j, hij, hi, hj, rfl, rfl⟩
    refine ⟨(i, j), hij, ?_⟩
    rw [singleton_classes_getD hi, singleton_classes_getD hj]
    rfl

theorem edges_nodup {elements : List α} (hnd : elements.Nodup)
    {H : List (Nat × Nat)}
    (hb : ∀ ij ∈ H, ij.1 < elements.length ∧ ij.2 < elements.length)
    (hHnd : H.Nodup) :
    (H.filterMap (fun ij =>
      match ((elements.map fun e => [e]).getD ij.1 []).head?,
          ((elements.map fun e => [e]).getD ij.2 []).head? with
      | some a, some b => some (a, b)
      | _, _ => none)).Nodup := by
  refine nodup_filterMap_on hHnd ?_
  intro a1 h1 a2 h2 b hb1 hb2
  obtain ⟨hi1, hj1⟩ := hb a1 h1
  obtain ⟨hi2, hj2⟩ := hb a2 h2
  rw [singleton_classes_getD hi1, singleton_classes_getD hj1] at hb1
  rw [singleton_classes_getD hi2, singleton_classes_getD hj2] at hb2
  simp only [List.head?] at hb1 hb2
  rw [← hb2] at hb1
  have := Option.some_injective _ hb1
  obtain ⟨he1, he2⟩ := Prod.ext_iff.mp this
  dsimp at he1 he2
  have hidx1 : a1.1 = a2.1 := by
    have := congrArg (posIn elements) he1
    rwa [posIn_getElem hnd hi1, posIn_getElem hnd hi2] at this
  have hidx2 : a1.2 = a2.2 := by
    have := congrArg (posIn elements) he2
    rwa [posIn_getElem hnd hj1, posIn_getElem hnd hj2] at this
  rw [Prod.ext_iff]
  exact ⟨hidx1, hidx2⟩

theorem eq_of_trel_eq {l1 l2 : List α} (h1 : l1.Nodup) (h2 : l2.Nodup)
    (h : trel l1 = trel l2) : l1 = l2 := by
  have hmem : ∀ a, a ∈ l1 ↔ a ∈ l2 := by
    intro a
    constructor
    · intro ha
      have : (a, a) ∈ trel l1 := (mem_trel_nodup h1).mpr ⟨ha, ha, Nat.le_refl _⟩
      rw [h] at this
      exact ((mem_trel_nodup h2).mp this).1
    · intro ha
      have : (a, a) ∈ trel l2 := (mem_trel_nodup h2).mpr ⟨ha, ha, Nat.le_refl _⟩
      rw [← h] at this
      exact ((mem_trel_nodup h1).mp this).1
  refine eq_of_nodup_of_order_iff h1 h2 hmem ?_
  intro a b ha hb
  constructor
  · intro hle
    have : (a, b) ∈ trel l1 := (mem_trel_nodup h1).mpr ⟨ha, hb, hle⟩
    rw [h] at this
    exact ((mem_trel_nodup h2).mp this).2.2
  · intro hle
    have : (a, b) ∈ trel l2 := (mem_trel_nodup h2).mpr
      ⟨(hmem a).mp ha, (hmem b).mp hb, hle⟩
    rw [← h] at this
    exact ((mem_trel_nodup h1).mp this).2.2

theorem pairwise_and_of_mem {β : Type} {R : β → β → Prop} {Q : β → Prop} :
    ∀ {l : List β}, l.Pairwise R → (∀ x ∈ l, Q x) →
    l.Pairwise fun a b => R a b ∧ Q a ∧ Q b := by
  intro l h
  induction h with
  | nil => intro _; exact List.Pairwise.nil
  | cons hx htail ih =>
    intro hq
    refine List.Pairwise.cons ?_
      (ih fun x hxm => hq x (List.mem_cons_of_mem _ hxm))
    intro z hz
    exact ⟨hx z hz, hq _ (List.mem_cons_self ..),
      hq z (List.mem_cons_of_mem _ hz)⟩

/-- Correctness of `_backtrack`: from a state satisfying the invariant and
with enough fuel, the backtracking succeeds and returns exactly the total
orders built from the linear extensions of the successor relation that
extend the current prefix. -/
theorem backtrack_spec {keys : List α} (hk : keys.Nodup)
    {succs : α → List α} (hS1 : ∀ u, (succs u).Nodup)
    (hS2 : ∀ u v, v ∈ succs u → u ∈ keys ∧ v ∈ keys)
    (hS3 : ∀ u, u ∉ succs u) :
    ∀ (fuel : Nat) (ord avail : List α) (ind : List (α × Nat)),
    BTInv keys succs ord avail ind →
    keys.length < fuel + ord.length →
    ∃ (L : List (PreOrderS α)) (ords : List (List α)),
      backtrack (keys.map fun k => (k, succs k)) keys.length fuel ord avail ind
        = .ok L ∧
      mapE total_order_from_list ords = .ok L ∧
      ords.Nodup ∧
      ∀ ℓ, ℓ ∈ ords ↔ ((∃ rest, ℓ = ord ++ rest) ∧ ℓ.Perm keys ∧
        ∀ u v, v ∈ succs u → Before ℓ u v) := by
  intro fuel
  induction fuel with
  | zero =>
    intro ord avail ind hinv hbound
    exfalso
    obtain ⟨hond, hok, _⟩ := hinv
    have := length_le_of_nodup_subset hond hok
    omega
  | succ fuel ih =>
    intro ord avail ind hinv hbound
    obtain ⟨hond, hok, hresp, havnd, havmem, hind⟩ := hinv
    by_cases hfull : ord.length = keys.length
    · have hperm : ord.Perm keys := perm_of_nodup_subset_length hond hk hok hfull
      obtain ⟨T, hT, _, _⟩ := total_order_from_list_ok hond
      refine ⟨[T], [ord], ?_, ?_, ?_, ?_⟩
      · simp only [backtrack]
        rw [if_pos (by simpa using hfull), hT]
        rfl
      · simp only [mapE, hT]
      · exact List.nodup_singleton ord
      · intro ℓ
        rw [List.mem_singleton]
        constructor
        · intro hle
          refine ⟨⟨[], by rw [hle, List.append_nil]⟩, by rw [hle]; exact hperm,
            ?_⟩
          intro u v hsv
          rw [hle]
          have hvo : v ∈ ord := hperm.mem_iff.mpr (hS2 u v hsv).2
          exact (hresp u v hsv hvo).2
        · intro ⟨⟨rest, hrest⟩, hpm, _⟩
          have hlenl : ℓ.length = keys.length := hpm.length_eq
          have hrl := congrArg List.length hrest
          rw [List.length_append] at hrl
          have hre : rest = [] := List.length_eq_zero.mp (by omega)
          rw [hrest, hre, List.append_nil]
    · have hlt : ord.length < keys.length :=
        lt_of_le_of_ne (length_le_of_nodup_subset hond hok) hfull
      have H : ∀ e, ∃ (L : List (PreOrderS α)) (os : List (List α)),
          e ∈ avail →
          (backtrack (keys.map fun k => (k, succs k)) keys.length fuel
            (ord ++ [e])
            (((lookupA (keys.map fun k => (k, succs k)) e).getD []).foldl
              (fun st s =>
                let ind2 := decIndeg st.2 s
                (if (lookupA ind2 s).getD 1 == 0 then st.1 ++ [s] else st.1,
                  ind2))
              (avail.erase e, ind)).1
            (((lookupA (keys.map fun k => (k, succs k)) e).getD []).foldl
              (fun st s =>
                let ind2 := decIndeg st.2 s
                (if (lookupA ind2 s).getD 1 == 0 then st.1 ++ [s] else st.1,
                  ind2))
              (avail.erase e, ind)).2 = .ok L ∧
          mapE total_order_from_list os = .ok L ∧ os.Nodup ∧
          ∀ ℓ, ℓ ∈ os ↔ ((∃ rest, ℓ = (ord ++ [e]) ++ rest) ∧ ℓ.Perm keys ∧
            ∀ u v, v ∈ succs u → Before ℓ u v)) := by
        intro e
        by_cases he : e ∈ avail
        · have hlk : lookupA (keys.map fun k => (k, succs k)) e =
              some (succs e) := by
            rw [lookupA_map_self, if_pos ((havmem e).mp he).1]
          obtain ⟨hfold, hinv2⟩ := backtrack_step_inv hk hS1 hS2 hS3
            ⟨hond, hok, hresp, havnd, havmem, hind⟩ he
          obtain ⟨L, os, hbk, hmape, hosnd, hosiff⟩ := ih (ord ++ [e]) _ _
            hinv2 (by simp only [List.length_append, List.length_cons,
              List.length_nil]; omega)
          refine ⟨L, os, fun _ => ⟨?_, hmape, hosnd, hosiff⟩⟩
          rw [hlk]
          simp only [Option.getD_some]
          rw [hfold]
          exact hbk
        · exact ⟨[], [], fun hc => absurd hc he⟩
      choose FL FO hH using H
      refine ⟨avail.flatMap FL, avail.flatMap FO, ?_, ?_, ?_, ?_⟩
      · simp only [backtrack]
        rw [if_neg (by simpa using hfull)]
        have hgok : ∀ e ∈ avail,
            backtrack (keys.map fun k => (k, succs k)) keys.length fuel
              (ord ++ [e])
              (((lookupA (keys.map fun k => (k, succs k)) e).getD []).foldl
                (fun st s =>
                  let ind2 := decIndeg st.2 s
                  (if (lookupA ind2 s).getD 1 == 0 then st.1 ++ [s] else st.1,
                    ind2))
                (avail.erase e, ind)).1
              (((lookupA (keys.map fun k => (k, succs k)) e).getD []).foldl
                (fun st s =>
                  let ind2 := decIndeg st.2 s
                  (if (lookupA ind2 s).getD 1 == 0 then st.1 ++ [s] else st.1,
                    ind2))
                (avail.erase e, ind)).2 = .ok (FL e) :=
          fun e he => (hH e he).1
        have := foldlE_append_ok avail hgok []
        simpa using this
      · exact mapE_flatMap_ok avail fun e he => (hH e he).2.1
      · refine nodup_flatMap_of havnd (fun e he => (hH e he).2.2.1) ?_
        intro e1 h1 e2 h2 hne x hx1 hx2
        obtain ⟨⟨r1, hr1⟩, _, _⟩ := ((hH e1 h1).2.2.2 x).mp hx1
        obtain ⟨⟨r2, hr2⟩, _, _⟩ := ((hH e2 h2).2.2.2 x).mp hx2
        have hg1 := getElem_append_mid (l := ord) (r := r1) e1
        have hg2 := getElem_append_mid (l := ord) (r := r2) e2
        rw [← hr1] at hg1
        rw [← hr2] at hg2
        rw [hg1] at hg2
        exact hne (Option.some_injective _ hg2)
      · intro ℓ
        rw [List.mem_flatMap]
        constructor
        · rintro ⟨e, he, hle⟩
          obtain ⟨⟨rest, hrest⟩, hpm, hrs⟩ := ((hH e he).2.2.2 ℓ).mp hle
          exact ⟨⟨[e] ++ rest, by rw [hrest, List.append_assoc]⟩, hpm, hrs⟩
        · rintro ⟨⟨rest, hrest⟩, hpm, hrespl⟩
          have hlenl : ℓ.length = keys.length := hpm.length_eq
          cases rest with
          | nil =>
            exfalso
            rw [hrest, List.append_nil] at hlenl
            omega
          | cons e rest2 =>
            have hlnd : ℓ.Nodup := hpm.nodup_iff.mpr hk
            have heord2 : e ∉ ord := by
              rw [hrest, List.nodup_append] at hlnd
              intro hc
              exact hlnd.2.2 hc (List.mem_cons_self ..)
            have hek2 : e ∈ keys := hpm.mem_iff.mp
              (hrest ▸ List.mem_append_right _ (List.mem_cons_self ..))
            have hpose : posIn ℓ e = ord.length := by
              rw [hrest, posIn_append, if_neg heord2, posIn_cons, if_pos rfl]
              omega
            have hpreds : ∀ u, e ∈ succs u → u ∈ ord := by
              intro u hu
              have hub : Before ℓ u e := hrespl u e hu
              rw [Before, hpose] at hub
              by_contra hno
              rw [hrest, posIn_append, if_neg hno] at hub
              omega
            have he2 : e ∈ avail := (havmem e).mpr ⟨hek2, heord2, hpreds⟩
            refine ⟨e, he2, ((hH e he2).2.2.2 ℓ).mpr
              ⟨⟨rest2, ?_⟩, hpm, hrespl⟩⟩
            rw [hrest, List.append_assoc]
            rfl

/-- C4: for a `PartialOrder` successfully built from a duplicate-free
element list and a relation set over those elements,
`completions_of_poset` succeeds and yields the total orders built from
exactly the linear extensions of the partial order, each exactly once
(the underlying extension lists are pairwise distinct and so are the
yielded orders under Python `__eq__`); every yielded completion's relation
set is a superset of the source's relation set; the count is `n!` when no
two distinct elements are related and `1` when the order is already
total. -/
theorem c4_completions_characterization {elements : List α}
    {rels : Finset (α × α)} {P : PreOrderS α} (hnd : elements.Nodup)
    (hrels : ∀ p ∈ rels, p.1 ∈ elements ∧ p.2 ∈ elements)
    (hmk : mkPartialOrder elements rels = .ok P) :
    ∃ (L : List (PreOrderS α)) (ords : List (List α)),
      completions_of_poset P = .ok L ∧
      mapE total_order_from_list ords = .ok L ∧
      ords.Nodup ∧
      (∀ ℓ, ℓ ∈ ords ↔ (ℓ.Perm elements ∧ P.relations ⊆ trel ℓ)) ∧
      (∀ T ∈ L, ∃ ℓ ∈ ords, total_order_from_list ℓ = .ok T ∧
        T.relations = trel ℓ) ∧
      (∀ T ∈ L, P.relations ⊆ T.relations) ∧
      List.Pairwise (fun T U => ¬ valueEq T U) L ∧
      ((∀ a b : α, a ≠ b → (a, b) ∉ P.relations) →
        L.length = Nat.factorial elements.length) ∧
      ((∀ a ∈ elements, ∀ b ∈ elements,
          (a, b) ∈ P.relations ∨ (b, a) ∈ P.relations) → L.length = 1) := by
  obtain ⟨hPel, hPr, hPcls, hPcyc, hPhasse, hPval⟩ := mkPartialOrder_ok hmk
  have hanti : ∀ a b, a ∈ elements → b ∈ elements → (a, b) ∈ P.relations →
      (b, a) ∈ P.relations → a = b := by
    rw [hPr] at hPval ⊢
    exact validate_antisymmetric hnd hPval
  have hrefl : ∀ a ∈ elements, (a, a) ∈ P.relations := by
    rw [hPr] at hPval ⊢
    exact validate_reflexive hPval
  have hrsub : ∀ p ∈ P.relations, p.1 ∈ elements ∧ p.2 ∈ elements := by
    rw [hPr]
    exact closure_subset hrels
  have hsing : P.eqClasses = elements.map fun e => [e] := by
    rw [hPcls]
    exact build_classes_singletons hanti hnd
  have hcyc2 : hasCycleb (class_edges P.relations (elements.map fun e => [e]))
      = false := by
    rw [← hsing]
    exact hPcyc
  have hacyc : ∀ a, ¬ Reaches (class_edges P.relations
      (elements.map fun e => [e])) a a := by
    intro a ha
    have := hasCycleb_iff.mpr ⟨a, ha⟩
    rw [hcyc2] at this
    exact absurd this (by simp)
  have hhasse2 : P.hasseEdges =
      reductionOf (class_edges P.relations (elements.map fun e => [e])) := by
    rw [hPhasse, hsing]
  have hHsub : ∀ ij ∈ P.hasseEdges,
      ij ∈ class_edges P.relations (elements.map fun e => [e]) := by
    intro ij hij
    rw [hhasse2, reductionOf] at hij
    exact (List.mem_filter.mp hij).1
  have hCEb : ∀ ij ∈ class_edges P.relations (elements.map fun e => [e]),
      ij.1 < elements.length ∧ ij.2 < elements.length := by
    intro ij hij
    have hij2 : (ij.1, ij.2) ∈ class_edges P.relations
        (elements.map fun e => [e]) := by
      rw [Prod.mk.eta]
      exact hij
    obtain ⟨hi, hj, _⟩ := (mem_class_edges hanti hnd).mp hij2
    exact ⟨hi, hj⟩
  have hHb : ∀ ij ∈ P.hasseEdges,
      ij.1 < elements.length ∧ ij.2 < elements.length :=
    fun ij hij => hCEb ij (hHsub ij hij)
  have hHnd : P.hasseEdges.Nodup := by
    rw [hhasse2, reductionOf]
    exact class_edges_nodup.filter _
  set E0 : List (α × α) := P.hasseEdges.filterMap (fun ij =>
    match ((elements.map fun e => [e]).getD ij.1 []).head?,
        ((elements.map fun e => [e]).getD ij.2 []).head? with
    | some u, some v => some (u, v)
    | _, _ => none) with hE0
  set succs : α → List α := fun u =>
    (E0.filter fun uv => decide (uv.1 = u)).map Prod.snd with hsuccs
  have hE0mem : ∀ u v : α, ((u, v) ∈ E0 ↔ ∃ i j, (i, j) ∈ P.hasseEdges ∧
      ∃ hi : i < elements.length, ∃ hj : j < elements.length,
      u = elements[i] ∧ v = elements[j]) := by
    intro u v
    rw [hE0]
    exact edges_mem hHb
  have hE0end : ∀ uv ∈ E0, uv.1 ∈ elements ∧ uv.2 ∈ elements := by
    intro uv huv
    have huv2 : (uv.1, uv.2) ∈ E0 := by
      rw [Prod.mk.eta]
      exact huv
    obtain ⟨i, j, _, hi, hj, h1, h2⟩ := (hE0mem uv.1 uv.2).mp huv2
    rw [h1, h2]
    exact ⟨List.getElem_mem hi, List.getElem_mem hj⟩
  have hE0nd : E0.Nodup := by
    rw [hE0]
    exact edges_nodup hnd hHb hHnd
  have hE0rel : ∀ u v : α, (u, v) ∈ E0 → (u, v) ∈ P.relations ∧ u ≠ v := by
    intro u v huv
    obtain ⟨i, j, hij, hi, hj, h1, h2⟩ := (hE0mem u v).mp huv
    have hce : (i, j) ∈ class_edges P.relations (elements.map fun e => [e]) :=
      hHsub (i, j) hij
    obtain ⟨hi2, hj2, hrel, hnrel⟩ := (mem_class_edges hanti hnd).mp hce
    constructor
    · rw [h1, h2]
      exact hrel
    · intro he
      rw [h1, h2] at he
      rw [he] at hrel
      rw [he] at hnrel
      exact hnrel hrel
  have hSmem : ∀ u v, v ∈ succs u ↔ (u, v) ∈ E0 := by
    intro u v
    rw [hsuccs]
    exact mem_succs_iff
  have hS1 : ∀ u, (succs u).Nodup := by
    intro u
    rw [hsuccs]
    refine List.Nodup.map_on ?_ (hE0nd.filter _)
    intro a ha b hb he
    rw [List.mem_filter] at ha hb
    have ha1 : a.1 = u := of_decide_eq_true ha.2
    have hb1 : b.1 = u := of_decide_eq_true hb.2
    rw [Prod.ext_iff]
    exact ⟨ha1.trans hb1.symm, he⟩
  have hS2 : ∀ u v, v ∈ succs u → u ∈ elements ∧ v ∈ elements :=
    fun u v hv => hE0end (u, v) ((hSmem u v).mp hv)
  have hS3 : ∀ u, u ∉ succs u :=
    fun u hu => (hE0rel u u ((hSmem u u).mp hu)).2 rfl
  have hind0 : (elements.map fun k =>
      (k, (E0.filter fun uv => decide (uv.2 = k)).length)) =
      elements.map fun v => (v, cnt elements succs [] v) := by
    apply List.map_congr_left
    intro k _
    rw [hsuccs, indeg_eq_cnt_nil hnd hE0end hE0nd k]
  have havail0 : (((elements.map fun v =>
      (v, cnt elements succs [] v)).filter fun p => p.2 == 0).map Prod.fst) =
      elements.filter fun v => cnt elements succs [] v == 0 := by
    rw [List.filter_map, List.map_map]
    have hcomp1 : (Prod.fst ∘ fun v : α => (v, cnt elements succs [] v)) =
        id := by
      funext v
      rfl
    rw [hcomp1, List.map_id]
    rfl
  have hBTInv : BTInv elements succs []
      (elements.filter fun v => cnt elements succs [] v == 0)
      (elements.map fun v => (v, cnt elements succs [] v)) := by
    refine ⟨List.nodup_nil, ?_, ?_, hnd.filter _, ?_, rfl⟩
    · intro x hx
      exact absurd hx (List.not_mem_nil x)
    · intro u v _ hv
      exact absurd hv (List.not_mem_nil v)
    · intro x
      rw [List.mem_filter]
      constructor
      · rintro ⟨hxk, hxc⟩
        have hc0 : cnt elements succs [] x = 0 := by simpa using hxc
        refine ⟨hxk, List.not_mem_nil x, ?_⟩
        intro u hu
        exfalso
        exact (cnt_nil_eq_zero_iff.mp hc0 u (hS2 u x hu).1) hu
      · rintro ⟨hxk, _, hp⟩
        refine ⟨hxk, ?_⟩
        have : cnt elements succs [] x = 0 := cnt_nil_eq_zero_iff.mpr
          (fun u _ hu => absurd (hp u hu) (List.not_mem_nil u))
        simpa using this
  obtain ⟨L, ords, hbk, hmape, hodnd, hoiff⟩ := backtrack_spec hnd hS1 hS2 hS3
    (elements.length + 1) []
    (elements.filter fun v => cnt elements succs [] v == 0)
    (elements.map fun v => (v, cnt elements succs [] v)) hBTInv (by simp)
  have hchar : ∀ ℓ : List α, ℓ.Perm elements → ℓ.Nodup →
      ((∀ u v, v ∈ succs u → Before ℓ u v) ↔ P.relations ⊆ trel ℓ) := by
    intro ℓ hpm hlnd
    constructor
    · intro hB p hp
      obtain ⟨a, b⟩ := p
      have ha : a ∈ elements := (hrsub (a, b) hp).1
      have hb : b ∈ elements := (hrsub (a, b) hp).2
      by_cases hab : a = b
      · subst hab
        exact (mem_trel_nodup hlnd).mpr ⟨hpm.mem_iff.mpr ha,
          hpm.mem_iff.mpr ha, Nat.le_refl _⟩
      · have hstrict : (b, a) ∉ P.relations :=
          fun hc => hab (hanti a b ha hb hp hc)
        obtain ⟨hia, hga⟩ := List.getElem?_eq_some_iff.mp (getElem?_posIn ha)
        obtain ⟨hib, hgb⟩ := List.getElem?_eq_some_iff.mp (getElem?_posIn hb)
        have hce : (posIn elements a, posIn elements b) ∈
            class_edges P.relations (elements.map fun e => [e]) :=
          (mem_class_edges hanti hnd).mpr ⟨hia, hib,
            by rw [hga, hgb]; exact hp, by rw [hga, hgb]; exact hstrict⟩
        have hreach : Reaches P.hasseEdges (posIn elements a)
            (posIn elements b) := by
          rw [hhasse2]
          exact (reduction_reach_iff hacyc _ _).mpr
            (Relation.TransGen.single hce)
        have hstep : ∀ i j : Nat, (i, j) ∈ P.hasseEdges →
            ∃ hi : i < elements.length, ∃ hj : j < elements.length,
              Before ℓ elements[i] elements[j] := by
          intro i j hij
          obtain ⟨hi, hj⟩ := hHb (i, j) hij
          refine ⟨hi, hj, ?_⟩
          apply hB
          rw [hSmem]
          exact (hE0mem _ _).mpr ⟨i, j, hij, hi, hj, rfl, rfl⟩
        have hmain : ∀ j : Nat, Reaches P.hasseEdges (posIn elements a) j →
            ∃ hj : j < elements.length, Before ℓ a elements[j] := by
          intro j hr
          induction hr with
          | single h1 =>
            obtain ⟨hi, hj, hbef⟩ := hstep _ _ h1
            refine ⟨hj, ?_⟩
            rw [← hga]
            exact hbef
          | tail hr1 h1 ih =>
            obtain ⟨hj0, hbef0⟩ := ih
            obtain ⟨hi, hj, hbef⟩ := hstep _ _ h1
            exact ⟨hj, before_trans hbef0 hbef⟩
        obtain ⟨hj, hbef⟩ := hmain _ hreach
        rw [hgb] at hbef
        exact (mem_trel_nodup hlnd).mpr ⟨hpm.mem_iff.mpr ha,
          hpm.mem_iff.mpr hb, Nat.le_of_lt hbef⟩
    · intro hsub u v hv
      have huvE : (u, v) ∈ E0 := (hSmem u v).mp hv
      obtain ⟨hrel, hne⟩ := hE0rel u v huvE
      obtain ⟨hul, hvl, hle⟩ := (mem_trel_nodup hlnd).mp (hsub hrel)
      have hneq : posIn ℓ u ≠ posIn ℓ v := fun hc => hne (posIn_inj hul hvl hc)
      rw [Before]
      omega
  have hoiff2 : ∀ ℓ, ℓ ∈ ords ↔ (ℓ.Perm elements ∧ P.relations ⊆ trel ℓ) := by
    intro ℓ
    rw [hoiff ℓ]
    constructor
    · rintro ⟨_, hpm, hresp⟩
      exact ⟨hpm, (hchar ℓ hpm (hpm.nodup_iff.mpr hnd)).mp hresp⟩
    · rintro ⟨hpm, hsub⟩
      exact ⟨⟨ℓ, by simp⟩, hpm,
        (hchar ℓ hpm (hpm.nodup_iff.mpr hnd)).mpr hsub⟩
  have hTstruct : ∀ T ∈ L, ∃ ℓ ∈ ords, total_order_from_list ℓ = .ok T ∧
      T.relations = trel ℓ := by
    intro T hT
    obtain ⟨ℓ, hℓ, hok⟩ := forall2_mem_right (mapE_forall2 hmape) T hT
    have hpm := (hoiff2 ℓ).mp hℓ
    obtain ⟨T2, hT2, _, hTrel⟩ :=
      total_order_from_list_ok (hpm.1.nodup_iff.mpr hnd)
    rw [hok] at hT2
    have hTT2 : T = T2 := by simpa using hT2
    refine ⟨ℓ, hℓ, hok, ?_⟩
    rw [hTT2]
    exact hTrel
  have hall : (P.eqClasses.all fun c => c.length == 1) = true := by
    rw [hsing, List.all_eq_true]
    intro c hc
    rw [List.mem_map] at hc
    obtain ⟨e, _, he⟩ := hc
    rw [← he]
    rfl
  have hcompeq : completions_of_poset P = .ok L := by
    unfold completions_of_poset
    rw [if_neg (fun hc => hc hall)]
    dsimp only
    rw [hsing, singleton_classes_nodes, List.dedup_eq_self.mpr hnd]
    have hBA := buildAdj_spec hnd hE0end hE0nd
    rw [hE0] at hBA
    rw [hBA]
    dsimp only
    rw [hind0, havail0]
    exact hbk
  refine ⟨L, ords, hcompeq, hmape, hodnd, hoiff2, hTstruct, ?_, ?_, ?_, ?_⟩
  · intro T hT
    obtain ⟨ℓ, hℓ, _, hTrel⟩ := hTstruct T hT
    rw [hTrel]
    exact ((hoiff2 ℓ).mp hℓ).2
  · have hpw : ords.Pairwise fun a b => a ≠ b ∧ a.Nodup ∧ b.Nodup :=
      pairwise_and_of_mem hodnd
        (fun x hx => ((hoiff2 x).mp hx).1.nodup_iff.mpr hnd)
    refine pairwise_of_forall2 ?_ (mapE_forall2 hmape) hpw
    intro x1 y1 x2 y2 hR1 hR2 hP hval
    obtain ⟨hne, hnd1, hnd2⟩ := hP
    obtain ⟨T1, hT1, _, hrel1⟩ := total_order_from_list_ok hnd1
    obtain ⟨T2, hT2, _, hrel2⟩ := total_order_from_list_ok hnd2
    rw [hR1] at hT1
    rw [hR2] at hT2
    have hy1 : y1 = T1 := by simpa using hT1
    have hy2 : y2 = T2 := by simpa using hT2
    have hre : trel x1 = trel x2 := by
      rw [← hrel1, ← hrel2, ← hy1, ← hy2]
      exact hval.2
    exact hne (eq_of_trel_eq hnd1 hnd2 hre)
  · intro hfree
    have hordsperm : ∀ ℓ, ℓ ∈ ords ↔ ℓ.Perm elements := by
      intro ℓ
      rw [hoiff2 ℓ]
      constructor
      · exact And.left
      · intro hpm
        refine ⟨hpm, ?_⟩
        intro p hp
        obtain ⟨a, b⟩ := p
        by_cases hab : a = b
        · subst hab
          have ha : a ∈ elements := (hrsub (a, a) hp).1
          exact (mem_trel_nodup (hpm.nodup_iff.mpr hnd)).mpr
            ⟨hpm.mem_iff.mpr ha, hpm.mem_iff.mpr ha, Nat.le_refl _⟩
        · exact absurd hp (hfree a b hab)
    have hpermperm : ords.Perm elements.permutations := by
      rw [List.perm_ext_iff_of_nodup hodnd (List.nodup_permutations _ hnd)]
      intro ℓ
      rw [hordsperm ℓ, List.mem_permutations]
    have hlen := (mapE_forall2 hmape).length_eq
    rw [← hlen, hpermperm.length_eq, List.length_permutations]
  · intro htotal
    have htrans : ∀ a ∈ elements, ∀ b ∈ elements, ∀ c ∈ elements,
        (a, b) ∈ P.relations → (b, c) ∈ P.relations →
        (a, c) ∈ P.relations := by
      intro a ha b hb c hc hab hbc
      by_contra hac
      have hca : (c, a) ∈ P.relations := (htotal a ha c hc).resolve_left hac
      have hne1 : a ≠ b := fun he => hac (by rw [he]; exact hbc)
      have hne2 : b ≠ c := fun he => hac (by rw [← he]; exact hab)
      have hne3 : a ≠ c := fun he => hac (by rw [← he]; exact hrefl a ha)
      have hs1 : (b, a) ∉ P.relations :=
        fun hc2 => hne1 (hanti a b ha hb hab hc2)
      have hs2 : (c, b) ∉ P.relations :=
        fun hc2 => hne2 (hanti b c hb hc hbc hc2)
      obtain ⟨hia, hga⟩ := List.getElem?_eq_some_iff.mp (getElem?_posIn ha)
      obtain ⟨hib, hgb⟩ := List.getElem?_eq_some_iff.mp (getElem?_posIn hb)
      obtain ⟨hic, hgc⟩ := List.getElem?_eq_some_iff.mp (getElem?_posIn hc)
      have he1 : (posIn elements a, posIn elements b) ∈
          class_edges P.relations (elements.map fun e => [e]) :=
        (mem_class_edges hanti hnd).mpr ⟨hia, hib,
          by rw [hga, hgb]; exact hab, by rw [hgb, hga]; exact hs1⟩
      have he2 : (posIn elements b, posIn elements c) ∈
          class_edges P.relations (elements.map fun e => [e]) :=
        (mem_class_edges hanti hnd).mpr ⟨hib, hic,
          by rw [hgb, hgc]; exact hbc, by rw [hgc, hgb]; exact hs2⟩
      have he3 : (posIn elements c, posIn elements a) ∈
          class_edges P.relations (elements.map fun e => [e]) :=
        (mem_class_edges hanti hnd).mpr ⟨hic, hia,
          by rw [hgc, hga]; exact hca, by rw [hga, hgc]; exact hac⟩
      exact hacyc (posIn elements a) (Relation.TransGen.tail
        (Relation.TransGen.tail (Relation.TransGen.single he1) he2) he3)
    have hanti2 : ∀ a ∈ elements, ∀ b ∈ elements, (a, b) ∈ P.relations →
        (b, a) ∈ P.relations → a = b := fun a ha b hb => hanti a b ha hb
    obtain ⟨ℓ0, hperm0, hsort0⟩ := exists_linear_ext elements.length elements
      rfl hnd htotal htrans hanti2
    have hnd0 : ℓ0.Nodup := hperm0.nodup_iff.mpr hnd
    have hsub0 : P.relations ⊆ trel ℓ0 := by
      intro p hp
      obtain ⟨a, b⟩ := p
      have ha := (hrsub (a, b) hp).1
      have hb := (hrsub (a, b) hp).2
      exact (mem_trel_nodup hnd0).mpr ⟨hperm0.mem_iff.mpr ha,
        hperm0.mem_iff.mpr hb, hsort0 a b ha hb hp⟩
    have hmem0 : ℓ0 ∈ ords := (hoiff2 ℓ0).mpr ⟨hperm0, hsub0⟩
    have huniq : ∀ x ∈ ords, x = ℓ0 := by
      intro x hx
      obtain ⟨hpmx, hsubx⟩ := (hoiff2 x).mp hx
      have hndx : x.Nodup := hpmx.nodup_iff.mpr hnd
      refine eq_of_nodup_of_order_iff hndx hnd0 ?_ ?_
      · intro a
        rw [hpmx.mem_iff, hperm0.mem_iff]
      · intro a b hax hbx
        have ha : a ∈ elements := hpmx.mem_iff.mp hax
        have hb : b ∈ elements := hpmx.mem_iff.mp hbx
        by_cases hab : a = b
        · subst hab
          simp
        · rcases htotal a ha b hb with hr1 | hr2
          · exact iff_of_true ((mem_trel_nodup hndx).mp (hsubx hr1)).2.2
              ((mem_trel_nodup hnd0).mp (hsub0 hr1)).2.2
          · have h1 := ((mem_trel_nodup hndx).mp (hsubx hr2)).2.2
            have h2 := ((mem_trel_nodup hnd0).mp (hsub0 hr2)).2.2
            have hq1 : posIn x a ≠ posIn x b :=
              fun hc => hab (posIn_inj hax hbx hc)
            have hq2 : posIn ℓ0 a ≠ posIn ℓ0 b :=
              fun hc => hab (posIn_inj (hperm0.mem_iff.mpr ha)
                (hperm0.mem_iff.mpr hb) hc)
            constructor
            · intro h3
              omega
            · intro h3
              omega
    have hords1 : ords = [ℓ0] := eq_singleton_of_unique hodnd hmem0 huniq
    have hlen := (mapE_forall2 hmape).length_eq
    rw [← hlen, hords1]
    rfl

theorem c4_completions_witness :
    ∃ (L : List (PreOrderS Nat)) (ords : List (List Nat)),
      completions_of_poset ((mkPartialOrder [0, 1]
          (∅ : Finset (Nat × Nat))).toOption.getD default) = .ok L ∧
      mapE total_order_from_list ords = .ok L ∧
      ords.Nodup ∧
      (∀ ℓ, ℓ ∈ ords ↔ (ℓ.Perm [0, 1] ∧
        ((mkPartialOrder [0, 1]
          (∅ : Finset (Nat × Nat))).toOption.getD default).relations ⊆
          trel ℓ)) ∧
      (∀ T ∈ L, ∃ ℓ ∈ ords, total_order_from_list ℓ = .ok T ∧
        T.relations = trel ℓ) ∧
      (∀ T ∈ L, ((mkPartialOrder [0, 1]
        (∅ : Finset (Nat × Nat))).toOption.getD default).relations ⊆
        T.relations) ∧
      List.Pairwise (fun T U => ¬ valueEq T U) L ∧
      ((∀ a b : Nat, a ≠ b → (a, b) ∉ ((mkPartialOrder [0, 1]
          (∅ : Finset (Nat × Nat))).toOption.getD default).relations) →
        L.length = Nat.factorial ([0, 1] : List Nat).length) ∧
      ((∀ a ∈ ([0, 1] : List Nat), ∀ b ∈ ([0, 1] : List Nat),
          (a, b) ∈ ((mkPartialOrder [0, 1]
            (∅ : Finset (Nat × Nat))).toOption.getD default).relations ∨
          (b, a) ∈ ((mkPartialOrder [0, 1]
            (∅ : Finset (Nat × Nat))).toOption.getD default).relations) →
        L.length = 1) :=
  @c4_completions_characterization Nat _ [0, 1] ∅
    ((mkPartialOrder [0, 1] (∅ : Finset (Nat × Nat))).toOption.getD default)
    (by decide) (by decide) (by rfl)

end PGame
